import Mathlib

/-!
# A verification model of the Smart File Organizer (fileReorg.py)

This file gives a shallow embedding of the decision procedures of the file
organizer: the classifier (`get_file_type`), the namer
(`generate_smart_filename` and its helpers), the content-analysis
collaborator wrapper (`analyze_content_with_ai`), the conflict-resolution
loops, the one-shot organize pass (`organize_files_in_folder`) and the
reconciliation pass (`reanalyze_organized_files`).

The filesystem is modelled as a root directory holding direct file children
and the `Organized_<Category>` subfolders, each with its list of files.
External collaborators (EXIF extraction, MIME sniffing, the remote
content-analysis call, and per-file failure modes of `stat` and of the move
primitive) are modelled as fields of the file record, since they are
deterministic oracles for a single run.  Wall-clock timestamps and the
stringified-metadata blob of a log entry are omitted from the log-entry
record; every other field is kept.
-/

namespace FileReorg

/-! ## Decimal rendering: `Nat.repr` is injective

The conflict-resolution loop builds candidate names `base_1`, `base_2`, …
with Python string interpolation of the counter; the model renders the
counter with `Nat.repr`.  Termination and freshness arguments need the
rendering to be injective, which we prove here from first principles.
-/

/-- The decimal digit characters of `n`, most significant first. -/
def natChars (n : Nat) : List Char :=
  if h : n < 10 then [Nat.digitChar n]
  else natChars (n / 10) ++ [Nat.digitChar (n % 10)]
decreasing_by
  exact Nat.div_lt_self (by omega) (by omega)

/-- Numeric value of a decimal digit character. -/
def charVal (c : Char) : Nat := c.toNat - 48

/-- Recover a natural number from its digit characters. -/
def valOfChars (l : List Char) : Nat := l.foldl (fun a c => 10 * a + charVal c) 0

/-! ## Python string helpers -/

/-- First `n` characters of a string (Python slice `s[:n]`). -/
def strTake (s : String) (n : Nat) : String := String.mk (s.toList.take n)

/-- Whether the first list is an initial segment of the second. -/
def leadsList : List Char → List Char → Bool
  | [], _ => true
  | _ :: _, [] => false
  | a :: as, b :: bs => a == b && leadsList as bs

/-- Whether the first list occurs contiguously inside the second. -/
def infixList (pat : List Char) : List Char → Bool
  | [] => leadsList pat []
  | b :: bs => leadsList pat (b :: bs) || infixList pat bs

/-- Python `sub in s` substring test (used on lowercased error messages). -/
def strContains (s pat : String) : Bool := infixList pat.toList s.toList

/-- Python `str.lower()` applied per character (exact on ASCII, which is all
the classifier tables and error patterns use). -/
def pyLower (s : String) : String := String.mk (s.toList.map Char.toLower)

/-- Python `str.startswith(pat)`. -/
def strStarts (s pat : String) : Bool := leadsList pat.toList s.toList

/-- Python regex `\w` in Unicode mode: ASCII letters, digits and underscore,
plus non-ASCII Unicode word characters.  The model is exact on ASCII; beyond
ASCII it covers the Latin-1 letters (U+00C0–U+00FF minus the multiplication
and division signs), which is the non-ASCII fragment exercised here — in
CPython `\w` matches every Unicode letter and digit. -/
def pyWordChar (c : Char) : Bool :=
  c.isAlphanum || c == '_' ||
    (0xC0 ≤ c.toNat && c.toNat ≤ 0xFF && c.toNat != 0xD7 && c.toNat != 0xF7)

/-- One character of `re.sub(r'[^\w\-_]', '_', s)`: characters outside the
class (word characters, hyphen, underscore) are replaced by underscore. -/
def sanitizeChar (c : Char) : Char :=
  if pyWordChar c || c == '-' then c else '_'

/-- `re.sub(r'[^\w\-_]', '_', s)` — the sanitizer used on AI suggestions and
on original file stems. -/
def pySanitize (s : String) : String := String.mk (s.toList.map sanitizeChar)

/-- Index of the last '.' in a character list, if any. -/
def lastDot : List Char → Option Nat
  | [] => none
  | c :: cs =>
    match lastDot cs with
    | some i => some (i + 1)
    | none => if c == '.' then some 0 else none

/-- `pathlib.PurePath.suffix`: the part of the name from its last dot, when
that dot is neither the first nor the last character; otherwise empty. -/
def pySuffix (name : String) : String :=
  match lastDot name.toList with
  | some i =>
    if 0 < i ∧ i < name.toList.length - 1 then String.mk (name.toList.drop i)
    else ""
  | none => ""

/-- `pathlib.PurePath.stem`: the name with `pySuffix` removed. -/
def pyStem (name : String) : String :=
  match lastDot name.toList with
  | some i =>
    if 0 < i ∧ i < name.toList.length - 1 then String.mk (name.toList.take i)
    else name
  | none => name

/-! ## Fixed tables (`SmartFileOrganizer.__init__`) -/

/-- `self.file_categories`: the ordered category → extension table. -/
def file_categories : List (String × List String) :=
  [("Images", [".jpg", ".jpeg", ".png", ".gif", ".bmp", ".tiff", ".svg", ".webp", ".ico"]),
   ("Documents", [".pdf", ".doc", ".docx", ".txt", ".rtf", ".odt", ".pages"]),
   ("Spreadsheets", [".xls", ".xlsx", ".csv", ".numbers", ".ods"]),
   ("Presentations", [".ppt", ".pptx", ".key", ".odp"]),
   ("Audio", [".mp3", ".wav", ".aac", ".flac", ".ogg", ".m4a"]),
   ("Video", [".mp4", ".avi", ".mov", ".mkv", ".wmv", ".flv", ".webm", ".m4v"]),
   ("Archives", [".zip", ".rar", ".7z", ".tar", ".gz", ".dmg", ".pkg"]),
   ("Code", [".py", ".js", ".html", ".css", ".java", ".cpp", ".c", ".php", ".rb", ".go", ".swift"]),
   ("Data", [".json", ".xml", ".yaml", ".yml", ".sql", ".db", ".sqlite"])]

/-- `self.system_files`: the fixed ignore set. -/
def system_files : List String :=
  [".DS_Store", ".localized", "Thumbs.db", ".Trashes", ".fseventsd"]

/-- All category folder names the organizer may create: the table categories
plus "Other". -/
def all_categories : List String := file_categories.map Prod.fst ++ ["Other"]

/-! ## Classifier (`is_system_file`, `get_file_type`) -/

/-- `is_system_file`: ignore-set members, dotfiles, and symlinks. -/
def is_system_file (name : String) (isSymlink : Bool) : Bool :=
  system_files.contains name || strStarts name "." || isSymlink

/-- The `for category, extensions in self.file_categories.items()` loop:
first category whose extension list contains `ext`. -/
def lookupCategory (ext : String) : List (String × List String) → Option String
  | [] => none
  | (cat, exts) :: rest =>
    if exts.contains ext then some cat else lookupCategory ext rest

/-- Python `mime_type or "Unknown"`: `None` and the empty string are both
falsy and yield "Unknown". -/
def mimeOrUnknown (m : Option String) : String :=
  match m with
  | none => "Unknown"
  | some s => if s == "" then "Unknown" else s

/-- `get_file_type`: lowercased extension looked up in the category table;
the label is the MIME hint (an external collaborator output) or "Unknown".
Non-files are (`"Unknown"`, `"Other"`). -/
def get_file_type (isFile : Bool) (name : String) (mime : Option String) :
    String × String :=
  if !isFile then ("Unknown", "Other")
  else
    match lookupCategory (pyLower (pySuffix name)) file_categories with
    | some cat => (mimeOrUnknown mime, cat)
    | none => (mimeOrUnknown mime, "Other")

/-! ## File records and metadata -/

/-- Outcome of one call to the remote content-analysis collaborator: the
reply text, or the message of the exception it raised. -/
inductive AIOutcome where
  | ok (text : String)
  | err (msg : String)
  deriving Repr, DecidableEq

/-- One regular file.  `content` is what reading the file would yield,
`photo_date` the EXIF DateTime an extraction would find, `mime` the sniffed
MIME type, `aiResponse` what the content-analysis collaborator would answer
for this file, and `statFails` / `moveFails` whether `stat` (metadata
extraction) / the move primitive raise for this file. -/
structure FileRec where
  name : String
  content : String
  photo_date : Option String
  mime : Option String
  isSymlink : Bool
  aiResponse : AIOutcome
  statFails : Bool
  moveFails : Bool
  deriving Repr, DecidableEq

/-- The metadata fields consumed downstream of `extract_metadata` (size and
timestamps are extracted too but never used by the namer; they are omitted). -/
structure Metadata where
  original_name : String
  extension : String
  photo_date : Option String
  deriving Repr, DecidableEq

/-- Extensions for which EXIF extraction is attempted. -/
def exif_exts : List String := [".jpg", ".jpeg", ".tiff"]

/-- `extract_metadata`: EXIF DateTime is recorded only for the image
extensions the code attempts PIL extraction on. -/
def extract_metadata (f : FileRec) : Metadata :=
  { original_name := f.name
    extension := pyLower (pySuffix f.name)
    photo_date :=
      if exif_exts.contains (pyLower (pySuffix f.name)) then f.photo_date
      else none }

/-- The text-like extensions `read_file_content` reads directly. -/
def text_read_exts : List String :=
  [".txt", ".md", ".py", ".js", ".html", ".css", ".json", ".xml", ".csv"]

/-- `read_file_content`: first 1000 characters for text-like files, PDF text
extraction (modelled as the file's text content) truncated to 1000, empty
otherwise; any read error yields the empty string. -/
def read_file_content (f : FileRec) : String :=
  let ext := pyLower (pySuffix f.name)
  if text_read_exts.contains ext then strTake f.content 1000
  else if ext == ".pdf" then strTake f.content 1000
  else ""

/-! ## Content-analysis collaborator (`analyze_content_with_ai`) -/

/-- Python `str.strip()`: leading and trailing whitespace removed. -/
def pyStrip (s : String) : String :=
  String.mk
    (((s.toList.dropWhile Char.isWhitespace).reverse.dropWhile
      Char.isWhitespace).reverse)

/-- The invalid-credential error pattern of the collaborator handler:
`"invalid_api_key" in error_msg or "401" in error_msg` on the lowercased
message. -/
def isInvalidCredMsg (msg : String) : Bool :=
  strContains (pyLower msg) "invalid_api_key" || strContains (pyLower msg) "401"

/-- `analyze_content_with_ai`.  Result: (suggestion, client still enabled
afterwards, collaborator was invoked).  With no client it returns the empty
suggestion without any call.  A reply is stripped and sanitized.  A raised
error is classified by substring match on its lowercased message:
invalid-credential errors disable the client (`self.ai_client = None`);
quota/rate, model, and other errors leave it enabled; all return "". -/
def analyze_content_with_ai (client : Bool) (resp : AIOutcome) :
    String × Bool × Bool :=
  if !client then ("", false, false)
  else
    match resp with
    | .ok text => (pySanitize (pyStrip text), true, true)
    | .err msg =>
      if isInvalidCredMsg msg then ("", false, true)
      else if strContains (pyLower msg) "insufficient_quota"
          || strContains (pyLower msg) "429" then ("", true, true)
      else if strContains (pyLower msg) "model" then ("", true, true)
      else ("", true, true)

/-! ## Namer (`generate_smart_filename`) -/

/-- `photo_date.replace(":", "").replace(" ", "_")` prefixed by "photo_". -/
def photoDateName (d : String) : String :=
  "photo_" ++
    String.mk ((d.toList.filter (fun c => c != ':')).map
      (fun c => if c == ' ' then '_' else c))

/-- Maximal runs of regex word characters of a character list. -/
def wordRunsAux : List Char → List Char → List (List Char)
  | [], acc => if acc.isEmpty then [] else [acc.reverse]
  | c :: cs, acc =>
    if pyWordChar c then wordRunsAux cs (c :: acc)
    else if acc.isEmpty then wordRunsAux cs []
    else acc.reverse :: wordRunsAux cs []

def wordRuns (l : List Char) : List (List Char) := wordRunsAux l []

/-- `re.findall(r'\b[A-Za-z]{4,}\b', s)`: with both boundaries anchored at
word-character run edges, the matches are exactly the maximal word-character
runs that are entirely ASCII-alphabetic and at least 4 long. -/
def findWords (s : String) : List String :=
  ((wordRuns s.toList).filter
      (fun r => decide (r.length ≥ 4) && r.all Char.isAlpha)).map String.mk

/-- `'_'.join(ls)` at the character level. -/
def joinChars : List (List Char) → List Char
  | [] => []
  | [w] => w
  | w :: ws => w ++ '_' :: joinChars ws

/-- `'_'.join(words[:3]).lower()` (Python `str.lower` is per-character). -/
def joinWords (ws : List String) : String :=
  String.mk ((joinChars ((ws.take 3).map String.toList)).map Char.toLower)

/-- The document/text extensions eligible for content-word naming. -/
def document_name_exts : List String := [".txt", ".md", ".pdf", ".doc", ".docx"]

/-- The source-code extensions of the namer (their branch sanitizes the stem
exactly as the default branch does). -/
def code_name_exts : List String := [".py", ".js", ".html", ".css", ".java", ".cpp"]

/-- The non-AI rule chain of `generate_smart_filename`: EXIF photo date,
then ≥2 content words of ≥4 letters from the first 200 characters joined and
lowercased, then (for code files and by default alike) the sanitized
original stem. -/
def fallbackName (base_name suffixLower : String) (md : Metadata)
    (content : String) : String :=
  match md.photo_date with
  | some d => photoDateName d
  | none =>
    if content != "" && document_name_exts.contains suffixLower
        && decide ((findWords (strTake content 200)).length ≥ 2) then
      joinWords (findWords (strTake content 200))
    else pySanitize base_name

/-- `generate_smart_filename`: with a non-empty content preview and an
enabled client, try the collaborator first and keep its suggestion when it
is longer than 3 characters; otherwise fall back to the rule chain.  Also
returns the client state, which the collaborator call may have disabled. -/
def generate_smart_filename (client : Bool) (name : String) (md : Metadata)
    (content : String) (resp : AIOutcome) : String × Bool :=
  if content != "" && client then
    if (analyze_content_with_ai client resp).1 != ""
        && decide ((analyze_content_with_ai client resp).1.length > 3) then
      ((analyze_content_with_ai client resp).1,
        (analyze_content_with_ai client resp).2.1)
    else
      (fallbackName (pyStem name) (pyLower (pySuffix name)) md content,
        (analyze_content_with_ai client resp).2.1)
  else (fallbackName (pyStem name) (pyLower (pySuffix name)) md content, client)

/-! ## Filesystem state

The scanned root holds direct file children and the `Organized_<Category>`
subfolders.  A folder named `Organized_X` is represented by its category
`X` (category strings never contain the literal `Organized_`, so the
`name.replace('Organized_', '')` of the source is exact).  Directories that
do not carry the organized prefix are never read or written by either pass
and are left out of the state. -/

structure Folder where
  category : String
  files : List FileRec
  deriving Repr, DecidableEq

/-- One line of `actions_log.jsonl`.  `original_dir`/`new_dir` give the
parent of the source/destination path (`none` = the scanned root, `some c` =
`Organized_c`).  The wall-clock timestamp and the stringified-metadata blob
are omitted; `action` is `some "reanalysis"` for reconcile entries and
absent for organize entries, matching the JSON shapes. -/
structure LogEntry where
  action : Option String
  original_dir : Option String
  original_name : String
  new_dir : String
  new_name : String
  category : String
  original_category : Option String
  change_type : List String
  mime_type : String
  deriving Repr, DecidableEq

structure RootState where
  rootFiles : List FileRec
  folders : List Folder
  log : List LogEntry
  deriving Repr, DecidableEq

/-- The `reanalysis_stats` counter record. -/
structure Stats where
  files_processed : Nat
  files_renamed : Nat
  files_moved : Nat
  ai_improvements : Nat
  deriving Repr, DecidableEq

def Stats.zero : Stats := ⟨0, 0, 0, 0⟩

def hasFolder (fs : List Folder) (cat : String) : Bool :=
  fs.any (fun fo => fo.category == cat)

/-- `Path.mkdir(exist_ok=True)` for `Organized_cat`: a no-op when the folder
already exists. -/
def mkdirExistOk (fs : List Folder) (cat : String) : List Folder :=
  if hasFolder fs cat then fs else fs ++ [⟨cat, []⟩]

/-- Directory listing of `Organized_cat` (empty when the folder is absent). -/
def filesOf (fs : List Folder) (cat : String) : List FileRec :=
  match fs with
  | [] => []
  | fo :: rest => if fo.category == cat then fo.files else filesOf rest cat

/-- `Path.exists` for `root/Organized_cat/name`. -/
def pathExists (fs : List Folder) (cat name : String) : Bool :=
  (filesOf fs cat).any (fun g => g.name == name)

/-- Place a file into `Organized_cat` (the passes only move into folders
they have ensured exist). -/
def addFile (fs : List Folder) (cat : String) (f : FileRec) : List Folder :=
  match fs with
  | [] => []
  | fo :: rest =>
    if fo.category == cat then { fo with files := fo.files ++ [f] } :: rest
    else fo :: addFile rest cat f

/-- Remove the file named `name` from `Organized_cat`. -/
def removeFile (fs : List Folder) (cat name : String) : List Folder :=
  match fs with
  | [] => []
  | fo :: rest =>
    if fo.category == cat then
      { fo with files := fo.files.eraseP (fun g => g.name == name) } :: rest
    else fo :: removeFile rest cat name

/-! ## Conflict resolution -/

/-- The n-th candidate filename tried by a conflict loop: the desired name
first, then `base_n` with the decimal counter. -/
def conflictCandidate (base sfx : String) : Nat → String
  | 0 => base ++ sfx
  | n + 1 => base ++ "_" ++ Nat.repr (n + 1) ++ sfx

/-- The `while occupied(candidate): counter += 1` loop of both passes, with
explicit fuel: first candidate at index ≥ `n` that is not occupied.  The
passes invoke it with fuel exceeding the number of files in the destination
folder, which is proved sufficient below. -/
def resolveConflict (occupied : String → Bool) (base sfx : String) :
    Nat → Nat → String
  | 0, n => conflictCandidate base sfx n
  | fuel + 1, n =>
    if occupied (conflictCandidate base sfx n) then
      resolveConflict occupied base sfx fuel (n + 1)
    else conflictCandidate base sfx n

/-! ## OrganizePass (`create_organized_folders`, `organize_files_in_folder`) -/

/-- `create_organized_folders`: eagerly ensure one folder per table category
and then the `Other` folder, each directly under the scanned root. -/
def create_organized_folders (fs : List Folder) : List Folder :=
  all_categories.foldl mkdirExistOk fs

/-- The body of the organize loop for one listed file, carrying the AI
client state.  System files are skipped; a raising `stat` (during metadata
extraction) or move primitive is caught at the loop boundary, leaving the
file in place — but the client state mutated by the naming call persists. -/
def organizeFile (st : RootState × Bool) (f : FileRec) : RootState × Bool :=
  let s := st.1
  let client := st.2
  if is_system_file f.name f.isSymlink then st
  else
    let tc := get_file_type true f.name f.mime
    if f.statFails then st
    else
      let md := extract_metadata f
      let content := read_file_content f
      let g := generate_smart_filename client f.name md content f.aiResponse
      let final := resolveConflict (fun c => pathExists s.folders tc.2 c) g.1
        (pySuffix f.name) ((filesOf s.folders tc.2).length + 1) 0
      if f.moveFails then (s, g.2)
      else
        ({ rootFiles := s.rootFiles.eraseP (fun g2 => g2.name == f.name)
           folders := addFile s.folders tc.2 { f with name := final }
           log := s.log ++ [{
             action := none
             original_dir := none
             original_name := f.name
             new_dir := tc.2
             new_name := final
             category := tc.2
             original_category := none
             change_type := []
             mime_type := tc.1 }] }, g.2)

/-- `organize_files_in_folder`: ensure the category folders, list the direct
file children that do not carry the organized prefix, and fold the per-file
body over them. -/
def organize_files_in_folder (s : RootState) (client : Bool) :
    RootState × Bool :=
  let s0 : RootState := { s with folders := create_organized_folders s.folders }
  let files := s.rootFiles.filter (fun f => !(strStarts f.name "Organized_"))
  files.foldl organizeFile (s0, client)

/-! ## ReconcilePass (`reanalyze_organized_files`) -/

/-- The body of the reconcile loop for one file of `Organized_cat`.
`files_processed` is incremented before the system-file skip.  When the
recomputed category or name differs, the destination folder is ensured (for
a category change), the conflict loop runs with the file's own path treated
as available, the rename/move counters are bumped, and then: in dry-run
mode nothing further happens; in live mode the file is moved and a log
entry appended unless the resolved destination is the file's own path.  A
raising `stat` aborts the file after the `files_processed` bump; a raising
move aborts it after the counter bumps but before the AI-improvement
check. -/
def reanalyzeFile (dry_run : Bool) (cat : String)
    (acc : RootState × Stats × Bool) (f : FileRec) : RootState × Stats × Bool :=
  let s := acc.1
  let client := acc.2.2
  let stats0 := { acc.2.1 with files_processed := acc.2.1.files_processed + 1 }
  if is_system_file f.name f.isSymlink then (s, stats0, client)
  else
    let tc := get_file_type true f.name f.mime
    if f.statFails then (s, stats0, client)
    else
      let md := extract_metadata f
      let content := read_file_content f
      let g := generate_smart_filename client f.name md content f.aiResponse
      let new_name := g.1
      let new_filename := new_name ++ pySuffix f.name
      let needs_category_move := tc.2 != cat
      let needs_rename := new_filename != f.name
      if needs_category_move || needs_rename then
        let fs1 := if needs_category_move then mkdirExistOk s.folders tc.2
          else s.folders
        let dest := if needs_category_move then tc.2 else cat
        let final := resolveConflict
          (fun c => pathExists fs1 dest c && !(dest == cat && c == f.name))
          new_name (pySuffix f.name) ((filesOf fs1 dest).length + 1) 0
        let change_type :=
          (if needs_category_move then
            ["category: " ++ cat ++ " → " ++ tc.2] else []) ++
          (if needs_rename then
            ["name: " ++ f.name ++ " → " ++ final] else [])
        let stats1 := { stats0 with
          files_moved :=
            if needs_category_move then stats0.files_moved + 1
            else stats0.files_moved
          files_renamed :=
            if needs_rename then stats0.files_renamed + 1
            else stats0.files_renamed }
        let bumpAI := fun (st : Stats) =>
          if needs_rename && decide (new_name.length > (pyStem f.name).length + 5)
          then { st with ai_improvements := st.ai_improvements + 1 } else st
        if dry_run then ({ s with folders := fs1 }, bumpAI stats1, g.2)
        else
          if dest == cat && final == f.name then
            ({ s with folders := fs1 }, bumpAI stats1, g.2)
          else if f.moveFails then ({ s with folders := fs1 }, stats1, g.2)
          else
            ({ s with
                folders := addFile (removeFile fs1 cat f.name) dest
                  { f with name := final }
                log := s.log ++ [{
                  action := some "reanalysis"
                  original_dir := some cat
                  original_name := f.name
                  new_dir := dest
                  new_name := final
                  category := tc.2
                  original_category := some cat
                  change_type := change_type
                  mime_type := tc.1 }] }, bumpAI stats1, g.2)
      else (s, stats0, g.2)

/-- Reconcile one organized folder: list its files afresh and fold the
per-file body over that listing. -/
def reanalyzeFolder (dry_run : Bool) (acc : RootState × Stats × Bool)
    (cat : String) : RootState × Stats × Bool :=
  (filesOf acc.1.folders cat).foldl (reanalyzeFile dry_run cat) acc

/-- `reanalyze_organized_files`: snapshot the organized folders; with none,
return no stats; otherwise fold the per-folder pass over the snapshot,
returning the final state, the stats, and the AI client state. -/
def reanalyze_organized_files (s : RootState) (client : Bool)
    (dry_run : Bool) : RootState × Option Stats × Bool :=
  if (s.folders.map Folder.category).isEmpty then (s, none, client)
  else
    (((s.folders.map Folder.category).foldl (reanalyzeFolder dry_run)
        (s, Stats.zero, client)).1,
      some ((s.folders.map Folder.category).foldl (reanalyzeFolder dry_run)
        (s, Stats.zero, client)).2.1,
      ((s.folders.map Folder.category).foldl (reanalyzeFolder dry_run)
        (s, Stats.zero, client)).2.2)

/-! ## Derived predicates used by the specification claims -/

/-- `^[A-Za-z0-9_-]+$`: non-empty, only ASCII letters, digits, underscore,
hyphen. -/
def matchesSanitized (s : String) : Bool :=
  !s.toList.isEmpty &&
    s.toList.all (fun c => c.isAlphanum || c == '_' || c == '-')

/-- Every character is ASCII. -/
def asciiOnly (s : String) : Bool := s.toList.all (fun c => c.toNat < 128)

/-- No '.' occurs in the string. -/
def dotFree (s : String) : Bool := s.toList.all (fun c => c != '.')

/-- A file the reconcile loop would never move across categories: skipped
(system/symlink), metadata extraction fails, or its recomputed category is
the folder it already sits in. -/
def correctlyPlaced (cat : String) (f : FileRec) : Bool :=
  is_system_file f.name f.isSymlink || f.statFails ||
    ((get_file_type true f.name f.mime).2 == cat)

/-- All files of all organized folders are correctly placed (or skipped). -/
def allPlacedOk (fs : List Folder) : Prop :=
  ∀ fo ∈ fs, ∀ f ∈ fo.files, correctlyPlaced fo.category f = true

/-- No file's move primitive fails and no file has an empty name. -/
def filesWellFormed (fs : List Folder) : Prop :=
  ∀ fo ∈ fs, ∀ f ∈ fo.files, f.moveFails = false ∧ f.name ≠ ""

/-- Folder categories are distinct, and names are distinct inside each
folder — what a real directory tree guarantees. -/
def stateNodup (fs : List Folder) : Prop :=
  (fs.map Folder.category).Nodup ∧
    ∀ fo ∈ fs, (fo.files.map FileRec.name).Nodup

/-- Total number of files across the organized folders. -/
def totalFiles (fs : List Folder) : Nat :=
  (fs.map (fun fo => fo.files.length)).sum

/-! ## Traces of collaborator calls (for the circuit-breaker claim) -/

/-- Per-call visible outcome (suggestion, collaborator invoked) of a
sequence of naming calls, threading the client state through the run. -/
def aiRun : Bool → List AIOutcome → List (String × Bool)
  | _, [] => []
  | client, r :: rs =>
    let a := analyze_content_with_ai client r
    (a.1, a.2.2) :: aiRun a.2.1 rs

/-- The client state after a sequence of calls. -/
def clientAfterCalls (client : Bool) (rs : List AIOutcome) : Bool :=
  rs.foldl (fun c r => (analyze_content_with_ai c r).2.1) client

/-! ## Concrete instances (for counterexamples and witnesses) -/

/-- A regular file with the given name and text content, no EXIF date, no
MIME hint, whose collaborator call would raise a generic error, and with no
failure modes. -/
def plainFile (name content : String) : FileRec :=
  { name := name
    content := content
    photo_date := none
    mime := none
    isSymlink := false
    aiResponse := .err ""
    statFails := false
    moveFails := false }

/-- A JPEG whose EXIF DateTime contains a slash. -/
def exPhotoFile : FileRec := { plainFile "x.jpg" "" with photo_date := some "a/b" }

/-- A text document whose content words give the base name
`machine_learning_algorithms`. -/
def exDoc (n : String) : FileRec := plainFile n "machine learning algorithms data"

/-- Two same-content documents in `Organized_Documents`: both recompute the
same base name. -/
def exTwinState : RootState :=
  ⟨[], [⟨"Documents", [exDoc "a.txt", exDoc "b.txt"]⟩], []⟩

/-- The state `exTwinState` reaches after one live reconcile pass: the
second file carries the conflict suffix `_1`. -/
def exSelfCollState : RootState :=
  ⟨[], [⟨"Documents", [exDoc "machine_learning_algorithms.txt",
    exDoc "machine_learning_algorithms_1.txt"]⟩], []⟩

/-- A Python source file misplaced in `Organized_Documents`. -/
def exPyFile : FileRec := plainFile "x.py" ""

/-- Misplaced code file, with the `Organized_Code` folder already present
and scanned after `Organized_Documents`. -/
def exCrossState : RootState :=
  ⟨[], [⟨"Documents", [exPyFile]⟩, ⟨"Code", []⟩], []⟩

/-- Misplaced code file with no `Organized_Code` folder yet. -/
def exNoCodeState : RootState := ⟨[], [⟨"Documents", [exPyFile]⟩], []⟩

/-- An `Organized_Images` folder holding only a `.DS_Store` system file. -/
def exSysState : RootState := ⟨[], [⟨"Images", [plainFile ".DS_Store" ""]⟩], []⟩

/-- An empty scanned root: no files, no folders. -/
def exEmptyState : RootState := ⟨[], [], []⟩

/-- A root file whose physical move fails. -/
def exBadMove : FileRec := { plainFile "bad one.txt" "" with moveFails := true }

/-- A healthy root file listed after the failing one. -/
def exGoodTwo : FileRec := plainFile "good two.txt" ""

/-- A file whose metadata extraction raises. -/
def exStatFile : FileRec := { plainFile "x.txt" "" with statFails := true }

/-- The conflict-suffixed twin document, with a failing move primitive. -/
def exMvDoc : FileRec :=
  { exDoc "machine_learning_algorithms_1.txt" with moveFails := true }

/-! ## Derived views of the reconcile per-file step

These name the intermediate values computed by `reanalyzeFile`, so that the
step's behaviour can be stated case by case. -/

/-- The recomputed category of a file (`new_category`). -/
def reCat (f : FileRec) : String := (get_file_type true f.name f.mime).2

/-- The recomputed base name of a file (`new_name`). -/
def reName (client : Bool) (f : FileRec) : String :=
  (generate_smart_filename client f.name (extract_metadata f)
    (read_file_content f) f.aiResponse).1

/-- The client state after the naming call. -/
def reClient (client : Bool) (f : FileRec) : Bool :=
  (generate_smart_filename client f.name (extract_metadata f)
    (read_file_content f) f.aiResponse).2

/-- The recomputed full filename (`new_filename` before conflict
resolution). -/
def reFilename (client : Bool) (f : FileRec) : String :=
  reName client f ++ pySuffix f.name

/-- The folder list after the destination folder has been ensured. -/
def reChangeFs1 (fs : List Folder) (cat : String) (f : FileRec) :
    List Folder :=
  if reCat f != cat then mkdirExistOk fs (reCat f) else fs

/-- The destination category (`new_dest_folder`). -/
def reChangeDest (cat : String) (f : FileRec) : String :=
  if reCat f != cat then reCat f else cat

/-- The resolved destination name after the conflict loop. -/
def reChangeFinal (fs : List Folder) (cat : String) (client : Bool)
    (f : FileRec) : String :=
  resolveConflict
    (fun c => pathExists (reChangeFs1 fs cat f) (reChangeDest cat f) c
      && !(reChangeDest cat f == cat && c == f.name))
    (reName client f) (pySuffix f.name)
    ((filesOf (reChangeFs1 fs cat f) (reChangeDest cat f)).length + 1) 0

/-- The counter bumps of the change branch (processed, moved, renamed). -/
def reStats1 (cat : String) (client : Bool) (f : FileRec) (st : Stats) :
    Stats :=
  { files_processed := st.files_processed + 1
    files_renamed :=
      if reFilename client f != f.name then st.files_renamed + 1
      else st.files_renamed
    files_moved :=
      if reCat f != cat then st.files_moved + 1 else st.files_moved
    ai_improvements := st.ai_improvements }

/-- The AI-improvement counter bump performed after a (possibly skipped)
move. -/
def aiBump (client : Bool) (f : FileRec) (st : Stats) : Stats :=
  if reFilename client f != f.name
      && decide ((reName client f).length > (pyStem f.name).length + 5)
  then { st with ai_improvements := st.ai_improvements + 1 } else st

/-- The log entry recorded for a live reconcile move. -/
def reLogEntry (fs : List Folder) (cat : String) (client : Bool)
    (f : FileRec) : LogEntry :=
  { action := some "reanalysis"
    original_dir := some cat
    original_name := f.name
    new_dir := reChangeDest cat f
    new_name := reChangeFinal fs cat client f
    category := reCat f
    original_category := some cat
    change_type :=
      (if reCat f != cat then
        ["category: " ++ cat ++ " → " ++ reCat f] else []) ++
      (if reFilename client f != f.name then
        ["name: " ++ f.name ++ " → " ++ reChangeFinal fs cat client f]
      else [])
    mime_type := (get_file_type true f.name f.mime).1 }

/-- The resolved destination name of the organize pass for one file. -/
def orgFinal (fs : List Folder) (client : Bool) (f : FileRec) : String :=
  resolveConflict (fun c => pathExists fs (reCat f) c) (reName client f)
    (pySuffix f.name) ((filesOf fs (reCat f)).length + 1) 0

/-- The log entry recorded for an organize move. -/
def orgLogEntry (fs : List Folder) (client : Bool) (f : FileRec) : LogEntry :=
  { action := none
    original_dir := none
    original_name := f.name
    new_dir := reCat f
    new_name := orgFinal fs client f
    category := reCat f
    original_category := none
    change_type := []
    mime_type := (get_file_type true f.name f.mime).1 }

/-- A listed root file that the organize loop leaves in place: filtered out
by the organized-prefix check, skipped as a system file, or abandoned when
`stat` or the move primitive raises. -/
def orgStays (f : FileRec) : Bool :=
  strStarts f.name "Organized_" || is_system_file f.name f.isSymlink
    || f.statFails || f.moveFails

/-! # Theorems -/

theorem natChars_ne_nil (n : Nat) : natChars n ≠ [] := by
  rw [natChars]
  split
  · simp
  · simp

theorem toDigitsCore_eq_natChars :
    ∀ (f n : Nat) (ds : List Char), n < f →
      Nat.toDigitsCore 10 f n ds = natChars n ++ ds := by
  intro f
  induction f with
  | zero => intro n ds h; omega
  | succ f ih =>
    intro n ds h
    rw [Nat.toDigitsCore]
    by_cases h10 : n < 10
    · have hdiv : n / 10 = 0 := Nat.div_eq_of_lt h10
      simp only [hdiv, if_pos rfl]
      rw [natChars]
      simp only [dif_pos h10]
      have hm : n % 10 = n := Nat.mod_eq_of_lt h10
      rw [hm]
      rfl
    · have hdiv : n / 10 ≠ 0 := by
        intro hc
        have h1 : 1 ≤ n / 10 := (Nat.le_div_iff_mul_le (by omega)).2 (by omega)
        omega
      simp only [if_neg hdiv]
      have hlt : n / 10 < f := by
        have h1 : n / 10 < n := Nat.div_lt_self (by omega) (by omega)
        omega
      rw [ih (n / 10) _ hlt]
      conv_rhs => rw [natChars]
      simp only [dif_neg h10, List.append_assoc, List.singleton_append]

theorem foldl_val_append (l : List Char) (c : Char) (a : Nat) :
    (l ++ [c]).foldl (fun a c => 10 * a + charVal c) a =
      10 * l.foldl (fun a c => 10 * a + charVal c) a + charVal c := by
  rw [List.foldl_append]
  rfl

theorem charVal_digitChar (d : Nat) (h : d < 10) :
    charVal (Nat.digitChar d) = d := by
  interval_cases d <;> decide

theorem valOfChars_natChars (n : Nat) : valOfChars (natChars n) = n := by
  induction n using Nat.strong_induction_on with
  | _ n ih =>
    rw [natChars]
    by_cases h : n < 10
    · simp only [dif_pos h]
      unfold valOfChars
      simp [charVal_digitChar n h]
    · simp only [dif_neg h]
      unfold valOfChars
      rw [foldl_val_append]
      have hdiv : n / 10 < n := Nat.div_lt_self (by omega) (by omega)
      have hih := ih (n / 10) hdiv
      unfold valOfChars at hih
      rw [hih, charVal_digitChar (n % 10) (Nat.mod_lt _ (by omega))]
      omega

theorem natChars_injective : Function.Injective natChars := by
  intro m n h
  have hm := valOfChars_natChars m
  have hn := valOfChars_natChars n
  rw [h] at hm
  omega

theorem repr_injective : Function.Injective Nat.repr := by
  intro m n h
  apply natChars_injective
  unfold Nat.repr Nat.toDigits at h
  rw [toDigitsCore_eq_natChars (m + 1) m [] (by omega),
      toDigitsCore_eq_natChars (n + 1) n [] (by omega)] at h
  simpa [List.asString] using congrArg String.data h

/-! ### Character facts -/

theorem toNat_ofNat_valid (n : Nat) (hv : n.isValidChar) :
    (Char.ofNat n).toNat = n := by
  simp only [Char.ofNat, dif_pos hv, Char.ofNatAux, Char.toNat]
  simp [UInt32.toNat, BitVec.toNat_ofNatLt]

theorem isLower_iff (c : Char) :
    c.isLower = true ↔ 97 ≤ c.toNat ∧ c.toNat ≤ 122 := by
  simp only [Char.isLower, Bool.and_eq_true, decide_eq_true_eq]
  constructor
  · rintro ⟨h1, h2⟩
    rw [ge_iff_le, UInt32.le_def, BitVec.le_def] at h1
    rw [UInt32.le_def, BitVec.le_def] at h2
    exact ⟨h1, h2⟩
  · rintro ⟨h1, h2⟩
    constructor
    · rw [ge_iff_le, UInt32.le_def, BitVec.le_def]
      exact h1
    · rw [UInt32.le_def, BitVec.le_def]
      exact h2

theorem toLower_alnum (c : Char) (h : c.isAlphanum = true) :
    (Char.toLower c).isAlphanum = true := by
  simp only [Char.toLower]
  split
  · rename_i hr
    have hc : 65 ≤ c.toNat ∧ c.toNat ≤ 90 := hr
    have hv : (c.toNat + 32).isValidChar := by
      left
      omega
    have ht := toNat_ofNat_valid (c.toNat + 32) hv
    simp only [Char.isAlphanum, Char.isAlpha, Bool.or_eq_true]
    left
    right
    rw [isLower_iff, ht]
    omega
  · exact h

/-- The character class accepted by `matchesSanitized`. -/
theorem toLower_keeps_class (c : Char)
    (h : (c.isAlphanum || c == '_' || c == '-') = true) :
    ((Char.toLower c).isAlphanum || Char.toLower c == '_'
      || Char.toLower c == '-') = true := by
  rcases Bool.or_eq_true .. |>.mp h with h1 | h2
  · rcases Bool.or_eq_true .. |>.mp h1 with h3 | h4
    · simp [toLower_alnum c h3]
    · have hc : c = '_' := by
        exact eq_of_beq h4
      subst hc
      decide
  · have hc : c = '-' := by
      exact eq_of_beq h2
    subst hc
    decide

/-! ### String coercion facts -/

theorem toList_mk (l : List Char) : (String.mk l).toList = l := rfl

theorem ne_empty_of_toList_ne_nil (s : String) (h : s.toList ≠ []) :
    s ≠ "" := by
  intro hc
  subst hc
  exact h rfl

theorem toList_ne_nil_of_ne_empty (s : String) (h : s ≠ "") :
    s.toList ≠ [] := by
  intro hc
  apply h
  cases s with
  | mk data =>
    have hd : data = [] := hc
    rw [hd]

/-! ### Sanitizer lemmas -/

theorem pyWordChar_ascii (c : Char) (ha : c.toNat < 128)
    (h : pyWordChar c = true) : (c.isAlphanum || c == '_') = true := by
  unfold pyWordChar at h
  rcases Bool.or_eq_true .. |>.mp h with h1 | h2
  · exact h1
  · exfalso
    simp only [Bool.and_eq_true, decide_eq_true_eq, bne_iff_ne] at h2
    omega

theorem sanitizeChar_class (c : Char) (ha : c.toNat < 128) :
    ((sanitizeChar c).isAlphanum || sanitizeChar c == '_'
      || sanitizeChar c == '-') = true := by
  unfold sanitizeChar
  split
  · rename_i h
    rcases Bool.or_eq_true .. |>.mp h with h1 | h2
    · have := pyWordChar_ascii c ha h1
      rcases Bool.or_eq_true .. |>.mp this with h3 | h4
      · simp [h3]
      · simp [h4]
    · simp [h2]
  · decide

theorem pySanitize_matches (s : String) (hne : s ≠ "")
    (ha : asciiOnly s = true) : matchesSanitized (pySanitize s) = true := by
  unfold matchesSanitized pySanitize
  rw [toList_mk]
  rw [Bool.and_eq_true]
  constructor
  · have hle := toList_ne_nil_of_ne_empty s hne
    simp only [Bool.not_eq_true']
    rw [List.isEmpty_eq_false_iff_exists_mem]
    rcases List.exists_mem_of_ne_nil _ hle with ⟨c, hc⟩
    exact ⟨sanitizeChar c, List.mem_map_of_mem _ hc⟩
  · rw [List.all_eq_true]
    intro c hc
    rcases List.mem_map.mp hc with ⟨c0, hc0, rfl⟩
    apply sanitizeChar_class
    unfold asciiOnly at ha
    have := (List.all_eq_true.mp ha) c0 hc0
    simpa using this

theorem asciiOnly_of_sublist (s t : String)
    (hs : List.Sublist s.toList t.toList)
    (ha : asciiOnly t = true) : asciiOnly s = true := by
  unfold asciiOnly at *
  rw [List.all_eq_true] at *
  intro c hc
  exact ha c (hs.subset hc)

theorem asciiOnly_pyStrip (t : String) (ha : asciiOnly t = true) :
    asciiOnly (pyStrip t) = true := by
  apply asciiOnly_of_sublist _ t _ ha
  unfold pyStrip
  rw [toList_mk]
  have h1 : List.Sublist
      (((t.toList.dropWhile Char.isWhitespace).reverse.dropWhile
        Char.isWhitespace).reverse)
      ((t.toList.dropWhile Char.isWhitespace).reverse.reverse) :=
    (List.dropWhile_sublist _).reverse
  rw [List.reverse_reverse] at h1
  exact h1.trans (List.dropWhile_sublist _)

theorem asciiOnly_pyStem (s : String) (ha : asciiOnly s = true) :
    asciiOnly (pyStem s) = true := by
  unfold pyStem
  split
  · split
    · apply asciiOnly_of_sublist _ s _ ha
      rw [toList_mk]
      exact List.take_sublist _ _
    · exact ha
  · exact ha

/-! ### Content-word naming lemmas -/

theorem joinChars_ne_nil (ls : List (List Char)) (hne : ls ≠ [])
    (hw : ∀ w ∈ ls, w ≠ []) : joinChars ls ≠ [] := by
  match ls with
  | [] => exact absurd rfl hne
  | [w] =>
    simp only [joinChars]
    exact hw w (by simp)
  | w :: w2 :: ws =>
    simp only [joinChars]
    intro hc
    rcases List.append_eq_nil.mp hc with ⟨h1, h2⟩
    exact List.cons_ne_nil _ _ h2

theorem joinChars_all (ls : List (List Char))
    (hw : ∀ w ∈ ls, w.all Char.isAlpha = true) :
    (joinChars ls).all (fun c => c.isAlphanum || c == '_' || c == '-')
      = true := by
  match ls with
  | [] => rfl
  | [w] =>
    simp only [joinChars]
    rw [List.all_eq_true]
    intro c hc
    have := (List.all_eq_true.mp (hw w (by simp))) c hc
    simp only [Char.isAlphanum]
    simp [this]
  | w :: w2 :: ws =>
    simp only [joinChars]
    rw [List.all_eq_true]
    intro c hc
    rcases List.mem_append.mp hc with h1 | h2
    · have := (List.all_eq_true.mp (hw w (by simp))) c h1
      simp only [Char.isAlphanum]
      simp [this]
    · rcases List.mem_cons.mp h2 with h3 | h4
      · subst h3
        decide
      · have ih := joinChars_all (w2 :: ws) (fun w hww => hw w (by simp [hww]))
        exact (List.all_eq_true.mp ih) c h4

theorem findWords_spec (s : String) (w : String) (hw : w ∈ findWords s) :
    w.toList ≠ [] ∧ w.toList.all Char.isAlpha = true := by
  unfold findWords at hw
  rcases List.mem_map.mp hw with ⟨r, hr, rfl⟩
  have hp := List.of_mem_filter hr
  rw [Bool.and_eq_true] at hp
  refine ⟨?_, ?_⟩
  · rw [toList_mk]
    intro hc
    subst hc
    have := of_decide_eq_true hp.1
    simp at this
  · rw [toList_mk]
    exact hp.2

theorem joinWords_matches (ws : List String) (h2 : 2 ≤ ws.length)
    (hall : ∀ w ∈ ws, w.toList ≠ [] ∧ w.toList.all Char.isAlpha = true) :
    matchesSanitized (joinWords ws) = true := by
  unfold matchesSanitized joinWords
  rw [toList_mk, Bool.and_eq_true]
  have htne : ws.take 3 ≠ [] := by
    intro hc
    rcases List.take_eq_nil_iff.mp hc with h3 | hws
    · exact absurd h3 (by omega)
    · rw [hws] at h2
      simp at h2
  have hjoin_ne : joinChars ((ws.take 3).map String.toList) ≠ [] := by
    apply joinChars_ne_nil
    · intro hc
      exact htne (List.map_eq_nil_iff.mp hc)
    · intro w hwmem
      rcases List.mem_map.mp hwmem with ⟨w0, hw0, rfl⟩
      exact (hall w0 (List.mem_of_mem_take hw0)).1
  constructor
  · simp only [Bool.not_eq_true']
    rw [List.isEmpty_eq_false_iff_exists_mem]
    rcases List.exists_mem_of_ne_nil _ hjoin_ne with ⟨c, hc⟩
    exact ⟨Char.toLower c, List.mem_map_of_mem _ hc⟩
  · rw [List.all_eq_true]
    intro c hc
    rcases List.mem_map.mp hc with ⟨c0, hc0, rfl⟩
    apply toLower_keeps_class
    have hcls := joinChars_all ((ws.take 3).map String.toList) ?_
    · exact (List.all_eq_true.mp hcls) c0 hc0
    · intro w hwmem
      rcases List.mem_map.mp hwmem with ⟨w0, hw0, rfl⟩
      exact (hall w0 (List.mem_of_mem_take hw0)).2

/-! ### Namer output lemmas -/

theorem pyStem_ne_empty (name : String) (h : name ≠ "") :
    pyStem name ≠ "" := by
  unfold pyStem
  split
  · split
    · rename_i hcond
      apply ne_empty_of_toList_ne_nil
      rw [toList_mk]
      intro hc
      have hlen := congrArg List.length hc
      rw [List.length_take, List.length_nil] at hlen
      omega
    · exact h
  · exact h

theorem analyze_err_suggestion (client : Bool) (m : String) :
    (analyze_content_with_ai client (.err m)).1 = "" := by
  cases client with
  | false => rfl
  | true =>
    unfold analyze_content_with_ai
    simp only [Bool.not_true, Bool.false_eq_true, if_false]
    split
    · rfl
    · split
      · rfl
      · split
        · rfl
        · rfl

theorem fallbackName_matches (name content : String) (md : Metadata)
    (hpd : md.photo_date = none) (hstem : pyStem name ≠ "")
    (ha : asciiOnly name = true) :
    matchesSanitized
      (fallbackName (pyStem name) (pyLower (pySuffix name)) md content)
      = true := by
  have hred : fallbackName (pyStem name) (pyLower (pySuffix name)) md content
      = if (content != ""
            && document_name_exts.contains (pyLower (pySuffix name))
            && decide ((findWords (strTake content 200)).length ≥ 2)) = true
        then joinWords (findWords (strTake content 200))
        else pySanitize (pyStem name) := by
    unfold fallbackName
    rw [hpd]
  rw [hred]
  split
  · rename_i hcond
    simp only [Bool.and_eq_true, decide_eq_true_eq] at hcond
    apply joinWords_matches _ hcond.2
    intro w hw
    exact findWords_spec _ w hw
  · exact pySanitize_matches _ hstem (asciiOnly_pyStem name ha)

/-- Supporting C3: the sanitized AI suggestion branch also matches. -/
theorem ai_branch_matches (t : String) (ha : asciiOnly t = true)
    (hne : pySanitize (pyStrip t) ≠ "") :
    matchesSanitized (pySanitize (pyStrip t)) = true := by
  apply pySanitize_matches
  · intro hc
    apply hne
    rw [hc]
    rfl
  · exact asciiOnly_pyStrip t ha

/-! ### Claim C3 -/

/-- C3 counterexample: the claim asserts the Namer output always matches
`^[A-Za-z0-9_-]+$`, but the EXIF photo-date naming rule interpolates the
date string with only ':' and ' ' handled, so a slash in the date survives
into the returned base name. -/
theorem c3_counterexample :
    (generate_smart_filename false "x.jpg" (extract_metadata exPhotoFile)
        (read_file_content exPhotoFile) exPhotoFile.aiResponse).1
      = "photo_a/b"
    ∧ matchesSanitized
        ((generate_smart_filename false "x.jpg" (extract_metadata exPhotoFile)
          (read_file_content exPhotoFile) exPhotoFile.aiResponse).1)
      = false := by
  constructor
  · rfl
  · rfl

/-- C3 (amended): when the metadata carries no photo date, the original
stem is non-empty, and the name and any collaborator reply are ASCII, the
Namer's base name matches `^[A-Za-z0-9_-]+$`.  (The photo-date rule passes
characters other than ':' and ' ' through unsanitized, and non-ASCII word
characters survive the sanitizer, so both restrictions are necessary.) -/
theorem c3_amended (client : Bool) (name content : String) (md : Metadata)
    (resp : AIOutcome) (hpd : md.photo_date = none)
    (hname : name ≠ "") (ha : asciiOnly name = true)
    (hresp : ∀ t, resp = .ok t → asciiOnly t = true) :
    matchesSanitized
      (generate_smart_filename client name md content resp).1 = true := by
  unfold generate_smart_filename
  have hstem := pyStem_ne_empty name hname
  split
  · cases resp with
    | ok t =>
      have hsug :
          (analyze_content_with_ai client (.ok t)).1
            = pySanitize (pyStrip t) ∨
          (analyze_content_with_ai client (.ok t)).1 = "" := by
        unfold analyze_content_with_ai
        split
        · right
          rfl
        · left
          rfl
      split
      · rename_i hguard
        rw [Bool.and_eq_true, bne_iff_ne] at hguard
        rcases hsug with hs | hs
        · rw [hs] at hguard ⊢
          exact ai_branch_matches t (hresp t rfl) hguard.1
        · exact absurd hs hguard.1
      · exact fallbackName_matches name content md hpd hstem ha
    | err m =>
      split
      · rename_i hguard
        rw [Bool.and_eq_true, bne_iff_ne] at hguard
        exact absurd (analyze_err_suggestion client m) hguard.1
      · exact fallbackName_matches name content md hpd hstem ha
  · exact fallbackName_matches name content md hpd hstem ha

/-- Witness for the amended C3 at a concrete input. -/
theorem c3_amended_witness :
    matchesSanitized
      (generate_smart_filename false "my doc.txt"
        { original_name := "my doc.txt", extension := ".txt",
          photo_date := none }
        "" (.err "")).1 = true :=
  c3_amended false "my doc.txt" ""
    { original_name := "my doc.txt", extension := ".txt", photo_date := none }
    (.err "") rfl (by decide) (by decide) (fun t h => nomatch h)

/-! ### Claim C5 -/

theorem lookup_table_sound (cat : String) (exts : List String)
    (hmem : (cat, exts) ∈ file_categories) (ext : String) (hext : ext ∈ exts) :
    lookupCategory ext file_categories = some cat := by
  have H : file_categories.all (fun p => p.2.all
      (fun e => lookupCategory e file_categories == some p.1)) = true := by
    decide
  have h1 := (List.all_eq_true.mp H) _ hmem
  have h2 := (List.all_eq_true.mp h1) _ hext
  exact eq_of_beq h2

theorem lookup_eq_none_of_not_mem (ext : String)
    (tbl : List (String × List String))
    (h : ∀ p ∈ tbl, ext ∉ p.2) : lookupCategory ext tbl = none := by
  induction tbl with
  | nil => rfl
  | cons p rest ih =>
    unfold lookupCategory
    have hnp : p.2.contains ext = false := by
      rw [Bool.eq_false_iff]
      intro hc
      exact h p (by simp) (by simpa using hc)
    cases p with
    | mk cat exts =>
      simp only at hnp
      rw [hnp]
      simp only [Bool.false_eq_true, if_false]
      exact ih (fun q hq => h q (by simp [hq]))

/-- C5: every extension of the classifier table is classified to the
category the table maps it to; unknown extensions go to `Other` with the
MIME hint (an empty or absent hint reading as "Unknown") as label.
`classify` is a total Lean function, so it always returns a pair. -/
theorem c5_classifier_table :
    (∀ cat exts, (cat, exts) ∈ file_categories → ∀ ext ∈ exts,
      ∀ name mime, pyLower (pySuffix name) = ext →
        (get_file_type true name mime).2 = cat)
    ∧ (∀ name mime,
        (∀ cat exts, (cat, exts) ∈ file_categories →
          pyLower (pySuffix name) ∉ exts) →
        get_file_type true name mime = (mimeOrUnknown mime, "Other"))
    ∧ (∀ s, s ≠ "" → mimeOrUnknown (some s) = s)
    ∧ mimeOrUnknown none = "Unknown" := by
  refine ⟨?_, ?_, ?_, rfl⟩
  · intro cat exts hmem ext hext name mime hlow
    unfold get_file_type
    simp only [Bool.not_true, Bool.false_eq_true, if_false]
    rw [hlow, lookup_table_sound cat exts hmem ext hext]
  · intro name mime hnot
    unfold get_file_type
    simp only [Bool.not_true, Bool.false_eq_true, if_false]
    rw [lookup_eq_none_of_not_mem _ _
      (fun p hp => hnot p.1 p.2 (by simpa using hp))]
  · intro s hs
    have hbeq : (s == "") = false := by
      rw [Bool.eq_false_iff]
      intro hc
      exact hs (eq_of_beq hc)
    show (if (s == "") = true then "Unknown" else s) = s
    rw [hbeq]
    simp

/-- Witness for C5 at concrete inputs: a table extension and an unknown
one. -/
theorem c5_witness :
    (get_file_type true "x.PY" none).2 = "Code"
    ∧ get_file_type true "x.zzz" (some "app/z") = ("app/z", "Other") := by
  constructor
  · exact c5_classifier_table.1 "Code"
      [".py", ".js", ".html", ".css", ".java", ".cpp", ".c", ".php", ".rb",
        ".go", ".swift"]
      (by decide) ".py" (by decide) "x.PY" none (by decide)
  · exact c5_classifier_table.2.1 "x.zzz" (some "app/z")
      (by intro cat exts hmem; fin_cases hmem <;> decide)

/-! ### Claim C7 -/

theorem analyze_disabled (r : AIOutcome) :
    analyze_content_with_ai false r = ("", false, false) := rfl

theorem aiRun_disabled (rs : List AIOutcome) (j : Nat) (hj : j < rs.length) :
    (aiRun false rs).get? j = some ("", false) := by
  induction rs generalizing j with
  | nil => simp at hj
  | cons r rs ih =>
    cases j with
    | zero => rfl
    | succ j =>
      have hstep : aiRun false (r :: rs) = ("", false) :: aiRun false rs := rfl
      rw [hstep, List.get?_cons_succ]
      exact ih j (by simpa using Nat.lt_of_succ_lt_succ hj)

theorem clientAfterCalls_cons (client : Bool) (r : AIOutcome)
    (l : List AIOutcome) :
    clientAfterCalls client (r :: l) =
      clientAfterCalls (analyze_content_with_ai client r).2.1 l := rfl

theorem analyze_invalid (msg : String) (h : isInvalidCredMsg msg = true) :
    analyze_content_with_ai true (.err msg) = ("", false, true) := by
  unfold analyze_content_with_ai
  simp only [Bool.not_true, Bool.false_eq_true, if_false]
  rw [h]
  simp

theorem analyze_other_err (msg : String) (h : isInvalidCredMsg msg = false) :
    analyze_content_with_ai true (.err msg) = ("", true, true) := by
  unfold analyze_content_with_ai
  simp only [Bool.not_true, Bool.false_eq_true, if_false]
  rw [h]
  simp only [Bool.false_eq_true, if_false]
  split
  · rfl
  · split
    · rfl
    · rfl

/-- C7: once a call signals an invalid credential (while the client is still
enabled), every later call in the run returns the empty suggestion without
invoking the collaborator; a non-credential error only yields an empty
suggestion for that one call, with the collaborator still invoked and the
client still enabled afterwards. -/
theorem c7_sticky_circuit_breaker :
    (∀ (client : Bool) (rs : List AIOutcome) (i : Nat) (msg : String),
      rs.get? i = some (.err msg) → isInvalidCredMsg msg = true →
      clientAfterCalls client (rs.take i) = true →
      ∀ j, i < j → j < rs.length →
        (aiRun client rs).get? j = some ("", false))
    ∧ (∀ (client : Bool) (rs : List AIOutcome) (i : Nat) (msg : String),
      rs.get? i = some (.err msg) → isInvalidCredMsg msg = false →
      clientAfterCalls client (rs.take i) = true →
      (aiRun client rs).get? i = some ("", true)
        ∧ clientAfterCalls client (rs.take (i + 1)) = true) := by
  constructor
  · intro client rs
    induction rs generalizing client with
    | nil => intro i msg h; simp at h
    | cons r rs ih =>
      intro i msg hget hbad hcl j hij hj
      cases i with
      | zero =>
        have hr : r = .err msg := by
          simpa using hget
        have hclient : client = true := hcl
        subst hr hclient
        cases j with
        | zero => omega
        | succ j =>
          have hstep : aiRun true (.err msg :: rs)
              = ("", true) :: aiRun false rs := by
            simp [aiRun, analyze_invalid msg hbad]
          rw [hstep, List.get?_cons_succ]
          exact aiRun_disabled rs j (by simpa using Nat.lt_of_succ_lt_succ hj)
      | succ i =>
        cases j with
        | zero => omega
        | succ j =>
          have hstep : aiRun client (r :: rs)
              = ((analyze_content_with_ai client r).1,
                 (analyze_content_with_ai client r).2.2)
                :: aiRun (analyze_content_with_ai client r).2.1 rs := rfl
          rw [hstep, List.get?_cons_succ]
          have htake : (r :: rs).take (i + 1) = r :: rs.take i := rfl
          rw [htake, clientAfterCalls_cons] at hcl
          exact ih _ i msg (by simpa using hget) hbad hcl j
            (by omega) (by simpa using Nat.lt_of_succ_lt_succ hj)
  · intro client rs
    induction rs generalizing client with
    | nil => intro i msg h; simp at h
    | cons r rs ih =>
      intro i msg hget hbad hcl
      cases i with
      | zero =>
        have hr : r = .err msg := by
          simpa using hget
        have hclient : client = true := hcl
        subst hr hclient
        constructor
        · have hstep : aiRun true (.err msg :: rs)
              = ("", true) :: aiRun true rs := by
            simp [aiRun, analyze_other_err msg hbad]
          rw [hstep]
          rfl
        · have htake : (AIOutcome.err msg :: rs).take 1 = [.err msg] := rfl
          rw [htake]
          show (analyze_content_with_ai true (.err msg)).2.1 = true
          rw [analyze_other_err msg hbad]
      | succ i =>
        have htake : (r :: rs).take (i + 1) = r :: rs.take i := rfl
        rw [htake, clientAfterCalls_cons] at hcl
        have hih := ih _ i msg (by simpa using hget) hbad hcl
        constructor
        · have hstep : aiRun client (r :: rs)
              = ((analyze_content_with_ai client r).1,
                 (analyze_content_with_ai client r).2.2)
                :: aiRun (analyze_content_with_ai client r).2.1 rs := rfl
          rw [hstep, List.get?_cons_succ]
          exact hih.1
        · have htake2 : (r :: rs).take (i + 2) = r :: rs.take (i + 1) := rfl
          rw [htake2, clientAfterCalls_cons]
          exact hih.2

/-- Witness for C7: a quota error at call 0 leaves the collaborator
enabled; the invalid-credential error at call 1 disables it, so call 2 is
not invoked even though it would have succeeded. -/
theorem c7_witness :
    ((aiRun true [.err "insufficient_quota", .err "Invalid_API_Key 401",
        .ok "name"]).get? 2 = some ("", false))
    ∧ ((aiRun true [.err "insufficient_quota", .err "Invalid_API_Key 401",
        .ok "name"]).get? 0 = some ("", true)
      ∧ clientAfterCalls true ([.err "insufficient_quota",
        .err "Invalid_API_Key 401", .ok "name"].take 1) = true) := by
  constructor
  · exact c7_sticky_circuit_breaker.1 true
      [.err "insufficient_quota", .err "Invalid_API_Key 401", .ok "name"]
      1 "Invalid_API_Key 401" (by decide) (by decide) (by decide)
      2 (by omega) (by decide)
  · exact c7_sticky_circuit_breaker.2 true
      [.err "insufficient_quota", .err "Invalid_API_Key 401", .ok "name"]
      0 "insufficient_quota" (by decide) (by decide) (by decide)

/-! ### Claim C6 -/

theorem repr_data_ne_nil (n : Nat) : (Nat.repr n).data ≠ [] := by
  unfold Nat.repr Nat.toDigits
  rw [toDigitsCore_eq_natChars (n + 1) n [] (by omega)]
  simpa [List.asString] using natChars_ne_nil n

theorem conflictCandidate_injective (base sfx : String) :
    Function.Injective (conflictCandidate base sfx) := by
  intro m n h
  match m, n with
  | 0, 0 => rfl
  | 0, k + 1 =>
    exfalso
    have hd := congrArg String.data h
    simp only [conflictCandidate, String.data_append] at hd
    have hlen := congrArg List.length hd
    simp only [List.length_append] at hlen
    have h1 : 0 < (Nat.repr (k + 1)).data.length :=
      List.length_pos.mpr (repr_data_ne_nil (k + 1))
    have h2 : ("_" : String).data.length = 1 := rfl
    omega
  | k + 1, 0 =>
    exfalso
    have hd := congrArg String.data h
    simp only [conflictCandidate, String.data_append] at hd
    have hlen := congrArg List.length hd
    simp only [List.length_append] at hlen
    have h1 : 0 < (Nat.repr (k + 1)).data.length :=
      List.length_pos.mpr (repr_data_ne_nil (k + 1))
    have h2 : ("_" : String).data.length = 1 := rfl
    omega
  | k + 1, j + 1 =>
    have hd := congrArg String.data h
    simp only [conflictCandidate, String.data_append,
      List.append_assoc] at hd
    have h1 := List.append_cancel_left hd
    have h2 := List.append_cancel_left h1
    have h3 := List.append_cancel_right h2
    have h4 : Nat.repr (k + 1) = Nat.repr (j + 1) := by
      have := congrArg String.mk h3
      simpa using this
    have := repr_injective h4
    omega

theorem resolveConflict_not_occupied (occupied : String → Bool)
    (base sfx : String) :
    ∀ (fuel n : Nat),
      (∃ k < fuel, occupied (conflictCandidate base sfx (n + k)) = false) →
      occupied (resolveConflict occupied base sfx fuel n) = false := by
  intro fuel
  induction fuel with
  | zero =>
    intro n h
    rcases h with ⟨k, hk, _⟩
    omega
  | succ fuel ih =>
    intro n h
    unfold resolveConflict
    split
    · rename_i hocc
      apply ih
      rcases h with ⟨k, hk, hfree⟩
      match k with
      | 0 =>
        rw [Nat.add_zero] at hfree
        rw [hocc] at hfree
        exact absurd hfree (by simp)
      | k + 1 =>
        refine ⟨k, by omega, ?_⟩
        rw [show n + 1 + k = n + (k + 1) by omega]
        exact hfree
    · rename_i hocc
      simpa using hocc

theorem exists_free_candidate (names : List String) (extra : String → Bool)
    (base sfx : String) (n0 : Nat) :
    ∃ k < names.length + 1,
      (names.contains (conflictCandidate base sfx (n0 + k)) &&
        extra (conflictCandidate base sfx (n0 + k))) = false := by
  by_contra hc
  push_neg at hc
  have hmem : ∀ k < names.length + 1,
      conflictCandidate base sfx (n0 + k) ∈ names := by
    intro k hk
    have hb := hc k hk
    rw [Bool.ne_false_iff, Bool.and_eq_true] at hb
    exact List.elem_iff.mp hb.1
  have hinj : Function.Injective
      (fun k => conflictCandidate base sfx (n0 + k)) := by
    intro a b hab
    have := conflictCandidate_injective base sfx hab
    omega
  have hnd : ((List.range (names.length + 1)).map
      (fun k => conflictCandidate base sfx (n0 + k))).Nodup :=
    (List.nodup_range _).map hinj
  have hcard : ((List.range (names.length + 1)).map
      (fun k => conflictCandidate base sfx (n0 + k))).length
        ≤ names.length := by
    set L := (List.range (names.length + 1)).map
      (fun k => conflictCandidate base sfx (n0 + k)) with hL
    have h1 : L.toFinset.card = L.length := List.toFinset_card_of_nodup hnd
    have h2 : L.toFinset ⊆ names.toFinset := by
      intro c hcF
      rw [List.mem_toFinset] at *
      rcases List.mem_map.mp hcF with ⟨k, hk, rfl⟩
      exact hmem k (List.mem_range.mp hk)
    calc L.length = L.toFinset.card := h1.symm
      _ ≤ names.toFinset.card := Finset.card_le_card h2
      _ ≤ names.length := names.toFinset_card_le
  simp at hcard

/-- C6: for any finite set of existing names and any desired base name and
extension, the conflict loop (run with the fuel the passes give it) returns
a name that does not exist, except that in the reconciliation variant the
file's own current name counts as available and may be returned. The
organize-pass variant is the `selfName = none` instance, whose result never
exists. -/
theorem c6_conflict_resolution (names : List String) (base sfx : String)
    (selfName : Option String) :
    names.contains (resolveConflict
        (fun c => names.contains c && !(selfName == some c))
        base sfx (names.length + 1) 0) = false
    ∨ selfName = some (resolveConflict
        (fun c => names.contains c && !(selfName == some c))
        base sfx (names.length + 1) 0) := by
  have hspec := resolveConflict_not_occupied
    (fun c => names.contains c && !(selfName == some c)) base sfx
    (names.length + 1) 0
    (exists_free_candidate names (fun c => !(selfName == some c)) base sfx 0)
  set r := resolveConflict
    (fun c => names.contains c && !(selfName == some c))
    base sfx (names.length + 1) 0 with hr
  by_cases hcont : names.contains r = true
  · right
    simp only [hcont, Bool.true_and, Bool.not_eq_false'] at hspec
    exact eq_of_beq hspec
  · left
    simpa using hcont

/-! ### Shape of the reconcile per-file step -/

theorem reFile_system (d : Bool) (cat : String)
    (acc : RootState × Stats × Bool) (f : FileRec)
    (h : is_system_file f.name f.isSymlink = true) :
    reanalyzeFile d cat acc f =
      (acc.1,
        { acc.2.1 with files_processed := acc.2.1.files_processed + 1 },
        acc.2.2) := by
  unfold reanalyzeFile
  rw [h]
  simp

theorem reFile_statFail (d : Bool) (cat : String)
    (acc : RootState × Stats × Bool) (f : FileRec)
    (h1 : is_system_file f.name f.isSymlink = false)
    (h2 : f.statFails = true) :
    reanalyzeFile d cat acc f =
      (acc.1,
        { acc.2.1 with files_processed := acc.2.1.files_processed + 1 },
        acc.2.2) := by
  unfold reanalyzeFile
  rw [h1, h2]
  simp

theorem reFile_nochange (d : Bool) (cat : String)
    (acc : RootState × Stats × Bool) (f : FileRec)
    (h1 : is_system_file f.name f.isSymlink = false)
    (h2 : f.statFails = false)
    (h3 : reCat f = cat) (h4 : reFilename acc.2.2 f = f.name) :
    reanalyzeFile d cat acc f =
      (acc.1,
        { acc.2.1 with files_processed := acc.2.1.files_processed + 1 },
        reClient acc.2.2 f) := by
  unfold reanalyzeFile
  rw [h1, h2]
  simp only [reCat] at h3
  simp only [reFilename, reName] at h4
  simp [h3, h4, reClient]

theorem reFile_change_dry (cat : String)
    (acc : RootState × Stats × Bool) (f : FileRec)
    (h1 : is_system_file f.name f.isSymlink = false)
    (h2 : f.statFails = false)
    (h5 : (reCat f != cat || reFilename acc.2.2 f != f.name) = true) :
    reanalyzeFile true cat acc f =
      ({ acc.1 with folders := reChangeFs1 acc.1.folders cat f },
        aiBump acc.2.2 f (reStats1 cat acc.2.2 f acc.2.1),
        reClient acc.2.2 f) := by
  unfold reanalyzeFile
  rw [h1, h2]
  simp only [reCat, reFilename, reName] at h5
  simp only [Bool.false_eq_true, if_false, h5, if_true]
  simp [reChangeFs1, reStats1, aiBump, reClient, reCat, reFilename, reName]

theorem reFile_change_self (cat : String)
    (acc : RootState × Stats × Bool) (f : FileRec)
    (h1 : is_system_file f.name f.isSymlink = false)
    (h2 : f.statFails = false)
    (h5 : (reCat f != cat || reFilename acc.2.2 f != f.name) = true)
    (hself : (reChangeDest cat f == cat
      && reChangeFinal acc.1.folders cat acc.2.2 f == f.name) = true) :
    reanalyzeFile false cat acc f =
      ({ acc.1 with folders := reChangeFs1 acc.1.folders cat f },
        aiBump acc.2.2 f (reStats1 cat acc.2.2 f acc.2.1),
        reClient acc.2.2 f) := by
  unfold reanalyzeFile
  rw [h1, h2]
  simp only [reCat, reFilename, reName] at h5
  simp only [reChangeDest, reChangeFinal, reChangeFs1, reCat, reFilename,
    reName] at hself
  simp only [Bool.false_eq_true, if_false, h5, if_true]
  simp only [hself, if_true]
  simp [reChangeFs1, reStats1, aiBump, reClient, reCat, reFilename, reName]

theorem reFile_change_movefail (cat : String)
    (acc : RootState × Stats × Bool) (f : FileRec)
    (h1 : is_system_file f.name f.isSymlink = false)
    (h2 : f.statFails = false)
    (h5 : (reCat f != cat || reFilename acc.2.2 f != f.name) = true)
    (hself : (reChangeDest cat f == cat
      && reChangeFinal acc.1.folders cat acc.2.2 f == f.name) = false)
    (hmv : f.moveFails = true) :
    reanalyzeFile false cat acc f =
      ({ acc.1 with folders := reChangeFs1 acc.1.folders cat f },
        reStats1 cat acc.2.2 f acc.2.1,
        reClient acc.2.2 f) := by
  unfold reanalyzeFile
  rw [h1, h2]
  simp only [reCat, reFilename, reName] at h5
  simp only [reChangeDest, reChangeFinal, reChangeFs1, reCat, reFilename,
    reName] at hself
  simp only [Bool.false_eq_true, if_false, h5, if_true]
  simp only [hself, if_false, hmv, if_true]
  simp [reChangeFs1, reStats1, reClient, reCat, reFilename, reName]

theorem reFile_change_move (cat : String)
    (acc : RootState × Stats × Bool) (f : FileRec)
    (h1 : is_system_file f.name f.isSymlink = false)
    (h2 : f.statFails = false)
    (h5 : (reCat f != cat || reFilename acc.2.2 f != f.name) = true)
    (hself : (reChangeDest cat f == cat
      && reChangeFinal acc.1.folders cat acc.2.2 f == f.name) = false)
    (hmv : f.moveFails = false) :
    reanalyzeFile false cat acc f =
      ({ acc.1 with
          folders := addFile
            (removeFile (reChangeFs1 acc.1.folders cat f) cat f.name)
            (reChangeDest cat f)
            { f with name := reChangeFinal acc.1.folders cat acc.2.2 f }
          log := acc.1.log
            ++ [reLogEntry acc.1.folders cat acc.2.2 f] },
        aiBump acc.2.2 f (reStats1 cat acc.2.2 f acc.2.1),
        reClient acc.2.2 f) := by
  unfold reanalyzeFile
  rw [h1, h2]
  simp only [reCat, reFilename, reName] at h5
  simp only [reChangeDest, reChangeFinal, reChangeFs1, reCat, reFilename,
    reName] at hself
  simp only [Bool.false_eq_true, if_false, h5, if_true]
  simp only [hself, if_false, hmv]
  simp [reChangeFs1, reChangeDest, reChangeFinal, reStats1, aiBump,
    reClient, reCat, reFilename, reName, reLogEntry]

/-! ### Claim C10 -/

theorem aiBump_files_renamed (client : Bool) (f : FileRec) (st : Stats) :
    (aiBump client f st).files_renamed = st.files_renamed := by
  unfold aiBump
  split <;> rfl

theorem aiBump_files_moved (client : Bool) (f : FileRec) (st : Stats) :
    (aiBump client f st).files_moved = st.files_moved := by
  unfold aiBump
  split <;> rfl

theorem aiBump_files_processed (client : Bool) (f : FileRec) (st : Stats) :
    (aiBump client f st).files_processed = st.files_processed := by
  unfold aiBump
  split <;> rfl

/-- C10: in a live reconcile, a file whose recomputed filename differs from
its current one but whose conflict resolution terminates at the file's own
path is counted as renamed (and moved only if the category changed — which
cannot happen in the self-collision case, so `filesMoved` is unchanged)
while the filesystem state, including the action log, is left untouched. -/
theorem c10_self_collision_counts (cat : String) (s : RootState) (st : Stats)
    (client : Bool) (f : FileRec)
    (h1 : is_system_file f.name f.isSymlink = false)
    (h2 : f.statFails = false)
    (hren : reFilename client f ≠ f.name)
    (hself : (reChangeDest cat f == cat
      && reChangeFinal s.folders cat client f == f.name) = true) :
    (reanalyzeFile false cat (s, st, client) f).1 = s
    ∧ (reanalyzeFile false cat (s, st, client) f).2.1.files_renamed
        = st.files_renamed + 1
    ∧ (reanalyzeFile false cat (s, st, client) f).2.1.files_moved
        = st.files_moved := by
  have hcatfalse : (reCat f != cat) = false := by
    rcases Bool.and_eq_true .. |>.mp hself with ⟨hd, _⟩
    have hdest : reChangeDest cat f = cat := eq_of_beq hd
    by_cases hbc : (reCat f != cat) = true
    · exfalso
      unfold reChangeDest at hdest
      rw [hbc] at hdest
      simp only [if_true] at hdest
      rw [hdest] at hbc
      simp at hbc
    · simpa using hbc
  have h5 : (reCat f != cat || reFilename client f != f.name) = true := by
    rw [Bool.or_eq_true]
    right
    rwa [bne_iff_ne]
  have hstep := reFile_change_self cat (s, st, client) f h1 h2 h5 hself
  have hfs1 : reChangeFs1 s.folders cat f = s.folders := by
    unfold reChangeFs1
    rw [hcatfalse]
    simp
  rw [hstep]
  refine ⟨?_, ?_, ?_⟩
  · rw [hfs1]
  · rw [aiBump_files_renamed]
    unfold reStats1
    rw [show (reFilename client f != f.name) = true by rwa [bne_iff_ne]]
    simp
  · rw [aiBump_files_moved]
    unfold reStats1
    rw [hcatfalse]
    simp

/-- Witness for C10: the suffixed twin document recomputes the unsuffixed
name, the conflict loop lands back on its own path, and the live pass
counts a rename with no state change. -/
theorem c10_witness :
    (reanalyzeFile false "Documents" (exSelfCollState, Stats.zero, false)
        (exDoc "machine_learning_algorithms_1.txt")).1 = exSelfCollState
    ∧ (reanalyzeFile false "Documents" (exSelfCollState, Stats.zero, false)
        (exDoc "machine_learning_algorithms_1.txt")).2.1.files_renamed
      = Stats.zero.files_renamed + 1
    ∧ (reanalyzeFile false "Documents" (exSelfCollState, Stats.zero, false)
        (exDoc "machine_learning_algorithms_1.txt")).2.1.files_moved
      = Stats.zero.files_moved :=
  c10_self_collision_counts "Documents" exSelfCollState Stats.zero false
    (exDoc "machine_learning_algorithms_1.txt")
    (by decide) (by decide) (by decide) (by decide)

/-! ### Folder-operation lemmas -/

theorem filesOf_append_empty (fs : List Folder) (c2 c : String) :
    filesOf (fs ++ [⟨c2, []⟩]) c = filesOf fs c := by
  induction fs with
  | nil =>
    show (if (c2 == c) = true then ([] : List FileRec) else filesOf [] c)
      = filesOf [] c
    split <;> rfl
  | cons fo rest ih =>
    show (if (fo.category == c) = true then fo.files
        else filesOf (rest ++ [⟨c2, []⟩]) c)
      = (if (fo.category == c) = true then fo.files else filesOf rest c)
    rw [ih]

theorem filesOf_mkdirExistOk (fs : List Folder) (c2 c : String) :
    filesOf (mkdirExistOk fs c2) c = filesOf fs c := by
  unfold mkdirExistOk
  split
  · rfl
  · exact filesOf_append_empty fs c2 c

theorem map_category_addFile (fs : List Folder) (cat : String) (f : FileRec) :
    (addFile fs cat f).map Folder.category = fs.map Folder.category := by
  induction fs with
  | nil => rfl
  | cons fo rest ih =>
    show ((if (fo.category == cat) = true
        then { fo with files := fo.files ++ [f] } :: rest
        else fo :: addFile rest cat f).map Folder.category)
      = fo.category :: rest.map Folder.category
    split
    · rfl
    · show fo.category :: (addFile rest cat f).map Folder.category = _
      rw [ih]

theorem map_category_removeFile (fs : List Folder) (cat name : String) :
    (removeFile fs cat name).map Folder.category = fs.map Folder.category := by
  induction fs with
  | nil => rfl
  | cons fo rest ih =>
    show ((if (fo.category == cat) = true
        then { fo with
          files := fo.files.eraseP (fun g => g.name == name) } :: rest
        else fo :: removeFile rest cat name).map Folder.category)
      = fo.category :: rest.map Folder.category
    split
    · rfl
    · show fo.category :: (removeFile rest cat name).map Folder.category = _
      rw [ih]

theorem map_category_mkdirExistOk (fs : List Folder) (c : String) :
    (mkdirExistOk fs c).map Folder.category
      = if hasFolder fs c then fs.map Folder.category
        else fs.map Folder.category ++ [c] := by
  unfold mkdirExistOk
  split <;> simp_all

theorem filesOf_addFile_ne (fs : List Folder) (cat c : String) (f : FileRec)
    (h : c ≠ cat) : filesOf (addFile fs cat f) c = filesOf fs c := by
  induction fs with
  | nil => rfl
  | cons fo rest ih =>
    show filesOf (if (fo.category == cat) = true
        then { fo with files := fo.files ++ [f] } :: rest
        else fo :: addFile rest cat f) c
      = (if (fo.category == c) = true then fo.files else filesOf rest c)
    by_cases hc : fo.category = cat
    · have h1 : (fo.category == cat) = true := beq_iff_eq.mpr hc
      have h2 : (fo.category == c) = false := by
        rw [beq_eq_false_iff_ne, hc]
        exact fun hcc => h hcc.symm
      rw [h1, h2]
      show (if (fo.category == c) = true then fo.files ++ [f]
        else filesOf rest c) = filesOf rest c
      rw [h2]
      simp
    · have h1 : (fo.category == cat) = false := by
        rw [beq_eq_false_iff_ne]
        exact hc
      rw [h1]
      show (if (fo.category == c) = true then fo.files
        else filesOf (addFile rest cat f) c) = _
      rw [ih]

theorem filesOf_removeFile_ne (fs : List Folder) (cat c name : String)
    (h : c ≠ cat) : filesOf (removeFile fs cat name) c = filesOf fs c := by
  induction fs with
  | nil => rfl
  | cons fo rest ih =>
    show filesOf (if (fo.category == cat) = true
        then { fo with
          files := fo.files.eraseP (fun g => g.name == name) } :: rest
        else fo :: removeFile rest cat name) c
      = (if (fo.category == c) = true then fo.files else filesOf rest c)
    by_cases hc : fo.category = cat
    · have h1 : (fo.category == cat) = true := beq_iff_eq.mpr hc
      have h2 : (fo.category == c) = false := by
        rw [beq_eq_false_iff_ne, hc]
        exact fun hcc => h hcc.symm
      rw [h1, h2]
      show (if (fo.category == c) = true
        then fo.files.eraseP (fun g => g.name == name)
        else filesOf rest c) = filesOf rest c
      rw [h2]
      simp
    · have h1 : (fo.category == cat) = false := by
        rw [beq_eq_false_iff_ne]
        exact hc
      rw [h1]
      show (if (fo.category == c) = true then fo.files
        else filesOf (removeFile rest cat name) c) = _
      rw [ih]

/-! ### The reconcile step always counts the file -/

theorem reFile_cases (d : Bool) (cat : String)
    (acc : RootState × Stats × Bool) (f : FileRec) :
    (is_system_file f.name f.isSymlink = true)
    ∨ (is_system_file f.name f.isSymlink = false ∧ f.statFails = true)
    ∨ (is_system_file f.name f.isSymlink = false ∧ f.statFails = false
        ∧ reCat f = cat ∧ reFilename acc.2.2 f = f.name)
    ∨ (is_system_file f.name f.isSymlink = false ∧ f.statFails = false
        ∧ (reCat f != cat || reFilename acc.2.2 f != f.name) = true) := by
  by_cases h1 : is_system_file f.name f.isSymlink = true
  · exact Or.inl h1
  · have h1f : is_system_file f.name f.isSymlink = false := by
      simpa using h1
    by_cases h2 : f.statFails = true
    · exact Or.inr (Or.inl ⟨h1f, h2⟩)
    · have h2f : f.statFails = false := by
        simpa using h2
      by_cases h5 : (reCat f != cat || reFilename acc.2.2 f != f.name) = true
      · exact Or.inr (Or.inr (Or.inr ⟨h1f, h2f, h5⟩))
      · have hor : (reCat f != cat) = false
            ∧ (reFilename acc.2.2 f != f.name) = false := by
          have hfalse : ((reCat f != cat)
              || (reFilename acc.2.2 f != f.name)) = false := by
            simpa using h5
          exact Bool.or_eq_false_iff.mp hfalse
        refine Or.inr (Or.inr (Or.inl ⟨h1f, h2f, ?_, ?_⟩))
        · simpa using hor.1
        · simpa using hor.2

theorem reFile_processed (d : Bool) (cat : String)
    (acc : RootState × Stats × Bool) (f : FileRec) :
    (reanalyzeFile d cat acc f).2.1.files_processed
      = acc.2.1.files_processed + 1 := by
  rcases reFile_cases d cat acc f with h | ⟨h1, h2⟩ | ⟨h1, h2, h3, h4⟩
    | ⟨h1, h2, h5⟩
  · rw [reFile_system d cat acc f h]
  · rw [reFile_statFail d cat acc f h1 h2]
  · rw [reFile_nochange d cat acc f h1 h2 h3 h4]
  · cases d with
    | true =>
      rw [reFile_change_dry cat acc f h1 h2 h5]
      rw [aiBump_files_processed]
      rfl
    | false =>
      by_cases hself : (reChangeDest cat f == cat
          && reChangeFinal acc.1.folders cat acc.2.2 f == f.name) = true
      · rw [reFile_change_self cat acc f h1 h2 h5 hself]
        rw [aiBump_files_processed]
        rfl
      · have hselff : (reChangeDest cat f == cat
            && reChangeFinal acc.1.folders cat acc.2.2 f == f.name)
              = false := by
          simpa using hself
        by_cases hmv : f.moveFails = true
        · rw [reFile_change_movefail cat acc f h1 h2 h5 hselff hmv]
          rfl
        · have hmvf : f.moveFails = false := by
            simpa using hmv
          rw [reFile_change_move cat acc f h1 h2 h5 hselff hmvf]
          rw [aiBump_files_processed]
          rfl

/-! ### Dry-run state preservation -/

theorem reFile_dry_state (cat : String) (acc : RootState × Stats × Bool)
    (f : FileRec) :
    (∀ c, filesOf (reanalyzeFile true cat acc f).1.folders c
      = filesOf acc.1.folders c)
    ∧ (reanalyzeFile true cat acc f).1.log = acc.1.log
    ∧ (reanalyzeFile true cat acc f).1.rootFiles = acc.1.rootFiles := by
  rcases reFile_cases true cat acc f with h | ⟨h1, h2⟩ | ⟨h1, h2, h3, h4⟩
    | ⟨h1, h2, h5⟩
  · rw [reFile_system true cat acc f h]
    exact ⟨fun c => rfl, rfl, rfl⟩
  · rw [reFile_statFail true cat acc f h1 h2]
    exact ⟨fun c => rfl, rfl, rfl⟩
  · rw [reFile_nochange true cat acc f h1 h2 h3 h4]
    exact ⟨fun c => rfl, rfl, rfl⟩
  · rw [reFile_change_dry cat acc f h1 h2 h5]
    refine ⟨fun c => ?_, rfl, rfl⟩
    show filesOf (reChangeFs1 acc.1.folders cat f) c = _
    unfold reChangeFs1
    split
    · exact filesOf_mkdirExistOk _ _ _
    · rfl

theorem reFolderFold_dry (cat : String) (files : List FileRec) :
    ∀ (acc : RootState × Stats × Bool),
    (∀ c, filesOf ((files.foldl (reanalyzeFile true cat) acc).1.folders) c
      = filesOf acc.1.folders c)
    ∧ (files.foldl (reanalyzeFile true cat) acc).1.log = acc.1.log
    ∧ (files.foldl (reanalyzeFile true cat) acc).1.rootFiles
        = acc.1.rootFiles
    ∧ (files.foldl (reanalyzeFile true cat) acc).2.1.files_processed
        = acc.2.1.files_processed + files.length := by
  induction files with
  | nil =>
    intro acc
    exact ⟨fun c => rfl, rfl, rfl, rfl⟩
  | cons f rest ih =>
    intro acc
    have hstep := reFile_dry_state cat acc f
    have hcnt := reFile_processed true cat acc f
    have hrest := ih (reanalyzeFile true cat acc f)
    refine ⟨fun c => ?_, ?_, ?_, ?_⟩
    · rw [List.foldl_cons, hrest.1 c, hstep.1 c]
    · rw [List.foldl_cons, hrest.2.1, hstep.2.1]
    · rw [List.foldl_cons, hrest.2.2.1, hstep.2.2]
    · rw [List.foldl_cons, hrest.2.2.2, hcnt, List.length_cons]
      omega

theorem reCatsFold_dry (cats : List String) :
    ∀ (acc : RootState × Stats × Bool),
    (∀ c, filesOf ((cats.foldl (reanalyzeFolder true) acc).1.folders) c
      = filesOf acc.1.folders c)
    ∧ (cats.foldl (reanalyzeFolder true) acc).1.log = acc.1.log
    ∧ (cats.foldl (reanalyzeFolder true) acc).1.rootFiles = acc.1.rootFiles
    ∧ (cats.foldl (reanalyzeFolder true) acc).2.1.files_processed
        = acc.2.1.files_processed
          + (cats.map (fun c => (filesOf acc.1.folders c).length)).sum := by
  induction cats with
  | nil =>
    intro acc
    exact ⟨fun c => rfl, rfl, rfl, by simp⟩
  | cons cat rest ih =>
    intro acc
    have hfold := reFolderFold_dry cat (filesOf acc.1.folders cat) acc
    have hrest := ih (reanalyzeFolder true acc cat)
    have hfolder : reanalyzeFolder true acc cat
        = (filesOf acc.1.folders cat).foldl (reanalyzeFile true cat) acc :=
      rfl
    refine ⟨fun c => ?_, ?_, ?_, ?_⟩
    · rw [List.foldl_cons, hrest.1 c, hfolder, hfold.1 c]
    · rw [List.foldl_cons, hrest.2.1, hfolder, hfold.2.1]
    · rw [List.foldl_cons, hrest.2.2.1, hfolder, hfold.2.2.1]
    · rw [List.foldl_cons, hrest.2.2.2, List.map_cons, List.sum_cons]
      have heq : ∀ c, filesOf (reanalyzeFolder true acc cat).1.folders c
          = filesOf acc.1.folders c := by
        intro c
        rw [hfolder]
        exact hfold.1 c
      have hmapeq : (rest.map (fun c =>
          (filesOf (reanalyzeFolder true acc cat).1.folders c).length)).sum
          = (rest.map (fun c => (filesOf acc.1.folders c).length)).sum := by
        congr 1
        apply List.map_congr_left
        intro c hc
        rw [heq c]
      rw [hmapeq, hfolder, hfold.2.2.2]
      omega

/-! ### Claim C4 -/

theorem reFolderFold_processed (d : Bool) (cat : String)
    (files : List FileRec) :
    ∀ (acc : RootState × Stats × Bool),
      (files.foldl (reanalyzeFile d cat) acc).2.1.files_processed
        = acc.2.1.files_processed + files.length := by
  induction files with
  | nil => intro acc; rfl
  | cons f rest ih =>
    intro acc
    rw [List.foldl_cons, ih, reFile_processed, List.length_cons]
    omega

theorem filesOf_self_of_nodup (fs : List Folder)
    (hnd : (fs.map Folder.category).Nodup) :
    ∀ fo ∈ fs, filesOf fs fo.category = fo.files := by
  induction fs with
  | nil =>
    intro fo h
    exact absurd h (List.not_mem_nil _)
  | cons g rest ih =>
    intro fo hmem
    rw [List.map_cons, List.nodup_cons] at hnd
    rcases List.mem_cons.mp hmem with rfl | hrest
    · show (if (fo.category == fo.category) = true then fo.files
        else filesOf rest fo.category) = fo.files
      simp
    · show (if (g.category == fo.category) = true then g.files
        else filesOf rest fo.category) = fo.files
      have hne : (g.category == fo.category) = false := by
        rw [beq_eq_false_iff_ne]
        intro hc
        apply hnd.1
        rw [hc]
        exact List.mem_map_of_mem _ hrest
      rw [hne]
      simp only [Bool.false_eq_true, if_false]
      exact ih hnd.2 fo hrest

theorem sum_filesOf_eq_totalFiles (fs : List Folder)
    (hnd : (fs.map Folder.category).Nodup) :
    ((fs.map Folder.category).map
      (fun c => (filesOf fs c).length)).sum = totalFiles fs := by
  unfold totalFiles
  rw [List.map_map]
  congr 1
  apply List.map_congr_left
  intro fo hfo
  show (filesOf fs fo.category).length = fo.files.length
  rw [filesOf_self_of_nodup fs hnd fo hfo]

/-- C4 counterexample: a folder holding only the system file `.DS_Store`
still reports one processed file, because the counter is incremented before
the system-file skip — contradicting the claim that skipped files do not
increment `filesProcessed`. -/
theorem c4_counterexample :
    is_system_file ".DS_Store" false = true
    ∧ (reanalyze_organized_files exSysState false false).2.1
        = some ⟨1, 0, 0, 0⟩ := by
  constructor
  · decide
  · decide

/-- C4 (amended): `filesProcessed` is incremented exactly once for every
file enumerated in an organized subfolder, including files skipped as
system/hidden/symlink (the increment precedes the skip check).  Stated for
a dry run over any state with distinct folder names, and for a live run
over a single organized folder (where re-enumeration of moved files cannot
occur). -/
theorem c4_amended :
    (∀ (s : RootState) (client : Bool),
      s.folders ≠ [] → (s.folders.map Folder.category).Nodup →
      ∀ st, (reanalyze_organized_files s client true).2.1 = some st →
        st.files_processed = totalFiles s.folders)
    ∧ (∀ (rf : List FileRec) (cat : String) (files : List FileRec)
        (lg : List LogEntry) (client : Bool) (st : Stats),
      (reanalyze_organized_files ⟨rf, [⟨cat, files⟩], lg⟩ client false).2.1
        = some st → st.files_processed = files.length) := by
  constructor
  · intro s client hne hnd st hst
    have hmapne : s.folders.map Folder.category ≠ [] := by
      simpa using hne
    have hemp : (s.folders.map Folder.category).isEmpty = false := by
      rw [Bool.eq_false_iff]
      intro hc
      exact hmapne (List.isEmpty_iff.mp hc)
    unfold reanalyze_organized_files at hst
    rw [hemp] at hst
    simp only [Bool.false_eq_true, if_false] at hst
    have hX : ((s.folders.map Folder.category).foldl (reanalyzeFolder true)
        (s, Stats.zero, client)).2.1 = st := by
      simpa using hst
    rw [← hX]
    have h4 := (reCatsFold_dry (s.folders.map Folder.category)
      (s, Stats.zero, client)).2.2.2
    rw [h4]
    have hsum := sum_filesOf_eq_totalFiles s.folders hnd
    show Stats.zero.files_processed
      + ((s.folders.map Folder.category).map
        (fun c => (filesOf s.folders c).length)).sum = totalFiles s.folders
    rw [hsum]
    simp [Stats.zero]
  · intro rf cat files lg client st hst
    have hrw : reanalyze_organized_files ⟨rf, [⟨cat, files⟩], lg⟩ client false
        = ((reanalyzeFolder false
            (⟨rf, [⟨cat, files⟩], lg⟩, Stats.zero, client) cat).1,
          some (reanalyzeFolder false
            (⟨rf, [⟨cat, files⟩], lg⟩, Stats.zero, client) cat).2.1,
          (reanalyzeFolder false
            (⟨rf, [⟨cat, files⟩], lg⟩, Stats.zero, client) cat).2.2) := rfl
    rw [hrw] at hst
    have hY : (reanalyzeFolder false
        (⟨rf, [⟨cat, files⟩], lg⟩, Stats.zero, client) cat).2.1 = st := by
      simpa using hst
    rw [← hY]
    have hfo : filesOf [⟨cat, files⟩] cat = files := by
      show (if (cat == cat) = true then files else filesOf [] cat) = files
      simp
    show ((filesOf [⟨cat, files⟩] cat).foldl (reanalyzeFile false cat)
      (⟨rf, [⟨cat, files⟩], lg⟩, Stats.zero, client)).2.1.files_processed
      = files.length
    rw [hfo, reFolderFold_processed false cat files]
    simp [Stats.zero]

/-- Witness for the amended C4: the `.DS_Store`-only folder is counted in
both modes. -/
theorem c4_amended_witness :
    ((1 : Nat) = totalFiles exSysState.folders)
    ∧ ((1 : Nat) = [plainFile ".DS_Store" ""].length) := by
  constructor
  · exact c4_amended.1 exSysState false (by decide) (by decide)
      ⟨1, 0, 0, 0⟩ (by decide)
  · exact c4_amended.2 [] "Images" [plainFile ".DS_Store" ""] [] false
      ⟨1, 0, 0, 0⟩ (by decide)

/-! ### Shape of the organize per-file step -/

theorem orgFile_system (st : RootState × Bool) (f : FileRec)
    (h : is_system_file f.name f.isSymlink = true) :
    organizeFile st f = st := by
  unfold organizeFile
  rw [h]
  simp

theorem orgFile_statFail (st : RootState × Bool) (f : FileRec)
    (h1 : is_system_file f.name f.isSymlink = false)
    (h2 : f.statFails = true) : organizeFile st f = st := by
  unfold organizeFile
  rw [h1, h2]
  simp

theorem orgFile_moveFail (st : RootState × Bool) (f : FileRec)
    (h1 : is_system_file f.name f.isSymlink = false)
    (h2 : f.statFails = false) (h3 : f.moveFails = true) :
    organizeFile st f = (st.1, reClient st.2 f) := by
  unfold organizeFile
  rw [h1, h2, h3]
  simp [reClient]

theorem orgFile_move (st : RootState × Bool) (f : FileRec)
    (h1 : is_system_file f.name f.isSymlink = false)
    (h2 : f.statFails = false) (h3 : f.moveFails = false) :
    organizeFile st f =
      ({ rootFiles := st.1.rootFiles.eraseP (fun g2 => g2.name == f.name)
         folders := addFile st.1.folders (reCat f)
           { f with name := orgFinal st.1.folders st.2 f }
         log := st.1.log ++ [orgLogEntry st.1.folders st.2 f] },
        reClient st.2 f) := by
  unfold organizeFile
  rw [h1, h2, h3]
  simp [reCat, reName, reClient, orgFinal, orgLogEntry]

theorem orgFile_rootFiles (st : RootState × Bool) (f : FileRec) :
    (organizeFile st f).1.rootFiles
      = if (is_system_file f.name f.isSymlink || f.statFails
            || f.moveFails) = true then st.1.rootFiles
        else st.1.rootFiles.eraseP (fun g2 => g2.name == f.name) := by
  by_cases h1 : is_system_file f.name f.isSymlink = true
  · rw [orgFile_system st f h1]
    rw [if_pos (by simp [h1])]
  · have h1f : is_system_file f.name f.isSymlink = false := by simpa using h1
    by_cases h2 : f.statFails = true
    · rw [orgFile_statFail st f h1f h2]
      rw [if_pos (by simp [h2])]
    · have h2f : f.statFails = false := by simpa using h2
      by_cases h3 : f.moveFails = true
      · rw [orgFile_moveFail st f h1f h2f h3]
        rw [if_pos (by simp [h3])]
      · have h3f : f.moveFails = false := by simpa using h3
        rw [orgFile_move st f h1f h2f h3f]
        rw [if_neg (by simp [h1f, h2f, h3f])]

theorem orgFold_rootFiles (l : List FileRec) :
    ∀ (st : RootState × Bool),
    ((l.foldl organizeFile st).1.rootFiles)
      = l.foldl (fun R f =>
          if (is_system_file f.name f.isSymlink || f.statFails
              || f.moveFails) = true then R
          else R.eraseP (fun g2 => g2.name == f.name)) st.1.rootFiles := by
  induction l with
  | nil => intro st; rfl
  | cons f rest ih =>
    intro st
    rw [List.foldl_cons, List.foldl_cons, ih (organizeFile st f),
      orgFile_rootFiles]

/-! ### Erasure folds compute a filter -/

theorem name_inj_of_nodup (R : List FileRec)
    (hnd : (R.map FileRec.name).Nodup) (g f : FileRec) (hg : g ∈ R)
    (hf : f ∈ R) (hname : g.name = f.name) : g = f :=
  List.inj_on_of_nodup_map hnd hg hf hname

theorem eraseP_name_eq_filter (R : List FileRec) (nm : String)
    (hnd : (R.map FileRec.name).Nodup) :
    R.eraseP (fun g => g.name == nm)
      = R.filter (fun g => !(g.name == nm)) := by
  induction R with
  | nil => rfl
  | cons r R2 ih =>
    rw [List.map_cons, List.nodup_cons] at hnd
    rw [List.eraseP_cons, List.filter_cons]
    by_cases hr : (r.name == nm) = true
    · rw [hr]
      simp only [cond_true, Bool.not_true, Bool.false_eq_true, if_false]
      symm
      rw [List.filter_eq_self]
      intro g hgR
      have hgname : g.name ≠ nm := by
        intro hc
        apply hnd.1
        have hrn : r.name = nm := eq_of_beq hr
        rw [hrn, ← hc]
        exact List.mem_map_of_mem _ hgR
      simpa using hgname
    · have hrf : (r.name == nm) = false := by simpa using hr
      rw [hrf]
      simp only [cond_false, Bool.not_false, if_true]
      rw [ih hnd.2]

theorem eraseFold_filter : ∀ (l R : List FileRec),
    (R.map FileRec.name).Nodup → (∀ f ∈ l, f ∈ R) →
    ((l.map FileRec.name).Nodup) →
    l.foldl (fun R2 f =>
        if (is_system_file f.name f.isSymlink || f.statFails
            || f.moveFails) = true then R2
        else R2.eraseP (fun g2 => g2.name == f.name)) R
      = R.filter (fun g => !(decide (g ∈ l)
          && !(is_system_file g.name g.isSymlink || g.statFails
            || g.moveFails))) := by
  intro l
  induction l with
  | nil =>
    intro R hnd hsub hlnd
    simp
  | cons f l2 ih =>
    intro R hnd hsub hlnd
    rw [List.map_cons, List.nodup_cons] at hlnd
    rw [List.foldl_cons]
    by_cases hstay : (is_system_file f.name f.isSymlink || f.statFails
        || f.moveFails) = true
    · rw [if_pos hstay]
      rw [ih R hnd (fun g hg => hsub g (by simp [hg])) hlnd.2]
      apply List.filter_congr
      intro g hgR
      by_cases hgf : g = f
      · subst hgf
        simp [hstay]
      · simp [List.mem_cons, hgf]
    · rw [if_neg hstay]
      have hstayf : (is_system_file f.name f.isSymlink || f.statFails
          || f.moveFails) = false := by simpa using hstay
      have hfR : f ∈ R := hsub f (by simp)
      rw [eraseP_name_eq_filter R f.name hnd]
      have hnd2 : ((R.filter (fun g => !(g.name == f.name))).map
          FileRec.name).Nodup :=
        ((List.filter_sublist R).map FileRec.name).nodup hnd
      have hsub2 : ∀ g ∈ l2, g ∈ R.filter (fun g => !(g.name == f.name)) := by
        intro g hg
        rw [List.mem_filter]
        refine ⟨hsub g (by simp [hg]), ?_⟩
        have hgname : g.name ≠ f.name := by
          intro hc
          apply hlnd.1
          rw [← hc]
          exact List.mem_map_of_mem _ hg
        simpa using hgname
      rw [ih _ hnd2 hsub2 hlnd.2]
      rw [List.filter_filter]
      apply List.filter_congr
      intro g hgR
      by_cases hgf : g = f
      · subst hgf
        simp [hstayf]
      · have hname : (g.name == f.name) = false := by
          rw [beq_eq_false_iff_ne]
          intro hc
          exact hgf (name_inj_of_nodup R hnd g f hgR hfR hc)
        simp [List.mem_cons, hgf, hname]

/-! ### Claim C8 -/

/-- C8: per-file errors are contained.  (a) In OrganizePass, with distinct
root file names, the files left at the root after the pass are exactly the
listing-excluded, skipped, and faulting ones — every other file is moved
even when files before it fault.  (b) In ReconcilePass, a file whose
metadata extraction raises costs exactly the `filesProcessed` bump and the
loop continues with the remaining files from an otherwise unchanged state.
(c) Likewise a file whose physical move raises: the counters bumped before
the move stick, no log entry is written, and the loop continues. -/
theorem c8_error_isolation :
    (∀ (s : RootState) (client : Bool),
      (s.rootFiles.map FileRec.name).Nodup →
      (organize_files_in_folder s client).1.rootFiles
        = s.rootFiles.filter orgStays)
    ∧ (∀ (d : Bool) (cat : String) (acc : RootState × Stats × Bool)
        (f : FileRec) (rest : List FileRec),
      f.statFails = true → is_system_file f.name f.isSymlink = false →
      (f :: rest).foldl (reanalyzeFile d cat) acc
        = rest.foldl (reanalyzeFile d cat)
          (acc.1, { acc.2.1 with
            files_processed := acc.2.1.files_processed + 1 }, acc.2.2))
    ∧ (∀ (cat : String) (acc : RootState × Stats × Bool) (f : FileRec)
        (rest : List FileRec),
      is_system_file f.name f.isSymlink = false → f.statFails = false →
      (reCat f != cat || reFilename acc.2.2 f != f.name) = true →
      (reChangeDest cat f == cat
        && reChangeFinal acc.1.folders cat acc.2.2 f == f.name) = false →
      f.moveFails = true →
      (f :: rest).foldl (reanalyzeFile false cat) acc
        = rest.foldl (reanalyzeFile false cat)
          ({ acc.1 with folders := reChangeFs1 acc.1.folders cat f },
            reStats1 cat acc.2.2 f acc.2.1, reClient acc.2.2 f)) := by
  refine ⟨?_, ?_, ?_⟩
  · intro s client hnd
    have horg : (organize_files_in_folder s client).1.rootFiles
        = ((s.rootFiles.filter
            (fun f => !(strStarts f.name "Organized_"))).foldl organizeFile
          ({ s with folders := create_organized_folders s.folders },
            client)).1.rootFiles := rfl
    rw [horg, orgFold_rootFiles]
    have hroot : ({ s with
        folders := create_organized_folders s.folders } : RootState).rootFiles
        = s.rootFiles := rfl
    rw [show (({ s with folders := create_organized_folders s.folders },
        client) : RootState × Bool).1.rootFiles = s.rootFiles from rfl]
    rw [eraseFold_filter _ s.rootFiles hnd
      (fun g hg => List.mem_of_mem_filter hg)
      (((List.filter_sublist s.rootFiles).map FileRec.name).nodup hnd)]
    apply List.filter_congr
    intro g hgR
    unfold orgStays
    by_cases hpre : strStarts g.name "Organized_" = true
    · have hnl : g ∉ s.rootFiles.filter
          (fun f => !(strStarts f.name "Organized_")) := by
        intro hc
        have := (List.mem_filter.mp hc).2
        rw [hpre] at this
        simp at this
      simp [hnl, hpre]
    · have hpref : strStarts g.name "Organized_" = false := by simpa using hpre
      have hl : g ∈ s.rootFiles.filter
          (fun f => !(strStarts f.name "Organized_")) := by
        rw [List.mem_filter]
        exact ⟨hgR, by simp [hpref]⟩
      simp [hl, hpref]
  · intro d cat acc f rest hstat hsys
    rw [List.foldl_cons, reFile_statFail d cat acc f hsys hstat]
  · intro cat acc f rest h1 h2 h5 hself hmv
    rw [List.foldl_cons, reFile_change_movefail cat acc f h1 h2 h5 hself hmv]

/-- Witness for C8 at concrete inputs: a root whose first file's move
fails while the second is fine — the second is still organized; a
stat-failing file in a reconcile folder costs only the counter bump; a
move-failing reconcile file keeps its counter bumps and the loop goes on. -/
theorem c8_witness :
    ((organize_files_in_folder ⟨[exBadMove, exGoodTwo], [], []⟩
        false).1.rootFiles = [exBadMove])
    ∧ ([exStatFile].foldl (reanalyzeFile false "Documents")
        (exSysState, Stats.zero, false)
      = (exSysState, { Stats.zero with files_processed := 1 }, false))
    ∧ ([exMvDoc].foldl (reanalyzeFile false "Other")
        (exSelfCollState, Stats.zero, false)
      = ({ exSelfCollState with
            folders := reChangeFs1 exSelfCollState.folders "Other" exMvDoc },
          reStats1 "Other" false exMvDoc Stats.zero,
          reClient false exMvDoc)) := by
  refine ⟨?_, ?_, ?_⟩
  · have h := c8_error_isolation.1 ⟨[exBadMove, exGoodTwo], [], []⟩ false
      (by decide)
    rw [h]
    decide
  · have h := c8_error_isolation.2.1 false "Documents"
      (exSysState, Stats.zero, false) exStatFile [] (by decide) (by decide)
    rw [h]
    decide
  · have h := c8_error_isolation.2.2 "Other"
      (exSelfCollState, Stats.zero, false) exMvDoc []
      (by decide) (by decide) (by decide) (by decide) (by decide)
    rw [h]
    decide

/-! ### Claim C9 -/

theorem hasFolder_mkdirExistOk_self (fs : List Folder) (c : String) :
    hasFolder (mkdirExistOk fs c) c = true := by
  unfold mkdirExistOk
  split
  · assumption
  · unfold hasFolder
    rw [List.any_append]
    simp

theorem hasFolder_mkdirExistOk_mono (fs : List Folder) (c c2 : String)
    (h : hasFolder fs c = true) : hasFolder (mkdirExistOk fs c2) c = true := by
  unfold mkdirExistOk
  split
  · exact h
  · unfold hasFolder at *
    rw [List.any_append, h]
    simp

theorem hasFolder_foldl_mono (l : List String) :
    ∀ (fs : List Folder) (c : String), hasFolder fs c = true →
      hasFolder (l.foldl mkdirExistOk fs) c = true := by
  induction l with
  | nil => intro fs c h; exact h
  | cons a rest ih =>
    intro fs c h
    rw [List.foldl_cons]
    exact ih _ c (hasFolder_mkdirExistOk_mono fs c a h)

theorem hasFolder_foldl_mem (l : List String) :
    ∀ (fs : List Folder) (c : String), c ∈ l →
      hasFolder (l.foldl mkdirExistOk fs) c = true := by
  induction l with
  | nil =>
    intro fs c h
    exact absurd h (List.not_mem_nil _)
  | cons a rest ih =>
    intro fs c h
    rw [List.foldl_cons]
    rcases List.mem_cons.mp h with rfl | hr
    · exact hasFolder_foldl_mono rest _ c (hasFolder_mkdirExistOk_self fs c)
    · exact ih _ c hr

theorem lookupCategory_mem (ext : String) (tbl : List (String × List String))
    (c : String) (h : lookupCategory ext tbl = some c) :
    c ∈ tbl.map Prod.fst := by
  induction tbl with
  | nil => exact absurd h (by simp [lookupCategory])
  | cons p rest ih =>
    cases p with
    | mk cat exts =>
      unfold lookupCategory at h
      split at h
      · have hcc : cat = c := Option.some.inj h
        rw [List.map_cons, ← hcc]
        exact List.mem_cons_self _ _
      · rw [List.map_cons]
        exact List.mem_cons_of_mem _ (ih h)

theorem get_file_type_cat_mem (b : Bool) (n : String) (m : Option String) :
    (get_file_type b n m).2 ∈ all_categories := by
  unfold get_file_type
  cases b with
  | false =>
    show ("Unknown", "Other").2 ∈ all_categories
    decide
  | true =>
    simp only [Bool.not_true, Bool.false_eq_true, if_false]
    cases hl : lookupCategory (pyLower (pySuffix n)) file_categories with
    | some c =>
      have := lookupCategory_mem _ _ _ hl
      unfold all_categories
      exact List.mem_append_left _ this
    | none =>
      unfold all_categories
      exact List.mem_append_right _ (by simp)

theorem reFile_folders_cats (d : Bool) (cat : String)
    (acc : RootState × Stats × Bool) (f : FileRec) :
    ∀ c ∈ (reanalyzeFile d cat acc f).1.folders.map Folder.category,
      c ∈ acc.1.folders.map Folder.category ∨ c ∈ all_categories := by
  have hfs1 : ∀ c ∈ (reChangeFs1 acc.1.folders cat f).map Folder.category,
      c ∈ acc.1.folders.map Folder.category ∨ c ∈ all_categories := by
    intro c hc
    unfold reChangeFs1 at hc
    split at hc
    · rw [map_category_mkdirExistOk] at hc
      split at hc
      · exact Or.inl hc
      · rcases List.mem_append.mp hc with h | h
        · exact Or.inl h
        · right
          have hcr : c = reCat f := by simpa using h
          rw [hcr]
          exact get_file_type_cat_mem true f.name f.mime
    · exact Or.inl hc
  rcases reFile_cases d cat acc f with h | ⟨h1, h2⟩ | ⟨h1, h2, h3, h4⟩
    | ⟨h1, h2, h5⟩
  · rw [reFile_system d cat acc f h]
    exact fun c hc => Or.inl hc
  · rw [reFile_statFail d cat acc f h1 h2]
    exact fun c hc => Or.inl hc
  · rw [reFile_nochange d cat acc f h1 h2 h3 h4]
    exact fun c hc => Or.inl hc
  · cases d with
    | true =>
      rw [reFile_change_dry cat acc f h1 h2 h5]
      exact hfs1
    | false =>
      by_cases hself : (reChangeDest cat f == cat
          && reChangeFinal acc.1.folders cat acc.2.2 f == f.name) = true
      · rw [reFile_change_self cat acc f h1 h2 h5 hself]
        exact hfs1
      · have hselff : (reChangeDest cat f == cat
            && reChangeFinal acc.1.folders cat acc.2.2 f == f.name)
              = false := by simpa using hself
        by_cases hmv : f.moveFails = true
        · rw [reFile_change_movefail cat acc f h1 h2 h5 hselff hmv]
          exact hfs1
        · have hmvf : f.moveFails = false := by simpa using hmv
          rw [reFile_change_move cat acc f h1 h2 h5 hselff hmvf]
          intro c hc
          simp only [map_category_addFile, map_category_removeFile] at hc
          exact hfs1 c hc

theorem reFold_folders_cats (files : List FileRec) (d : Bool) (cat : String) :
    ∀ (acc : RootState × Stats × Bool),
    ∀ c ∈ ((files.foldl (reanalyzeFile d cat) acc).1.folders.map
      Folder.category),
      c ∈ acc.1.folders.map Folder.category ∨ c ∈ all_categories := by
  induction files with
  | nil => intro acc c hc; exact Or.inl hc
  | cons f rest ih =>
    intro acc c hc
    rw [List.foldl_cons] at hc
    rcases ih (reanalyzeFile d cat acc f) c hc with h | h
    · exact reFile_folders_cats d cat acc f c h
    · exact Or.inr h

theorem reCats_folders_cats (cats : List String) (d : Bool) :
    ∀ (acc : RootState × Stats × Bool),
    ∀ c ∈ ((cats.foldl (reanalyzeFolder d) acc).1.folders.map
      Folder.category),
      c ∈ acc.1.folders.map Folder.category ∨ c ∈ all_categories := by
  induction cats with
  | nil => intro acc c hc; exact Or.inl hc
  | cons cat rest ih =>
    intro acc c hc
    rw [List.foldl_cons] at hc
    rcases ih (reanalyzeFolder d acc cat) c hc with h | h
    · exact reFold_folders_cats (filesOf acc.1.folders cat) d cat acc c h
    · exact Or.inr h

/-! ### Correctly-placed files trigger no folder creation -/

theorem placed_no_catmove (cat : String) (f : FileRec)
    (h1 : is_system_file f.name f.isSymlink = false)
    (h2 : f.statFails = false)
    (hpl : correctlyPlaced cat f = true) : (reCat f != cat) = false := by
  unfold correctlyPlaced at hpl
  rw [h1, h2] at hpl
  simp only [Bool.false_or] at hpl
  unfold reCat
  rw [bne_eq_false_iff_eq]
  exact eq_of_beq hpl

theorem reFile_placed_state (d : Bool) (cat : String)
    (acc : RootState × Stats × Bool) (f : FileRec)
    (hpl : correctlyPlaced cat f = true) :
    ((reanalyzeFile d cat acc f).1.folders.map Folder.category
      = acc.1.folders.map Folder.category)
    ∧ (∀ c, c ≠ cat →
      filesOf (reanalyzeFile d cat acc f).1.folders c
        = filesOf acc.1.folders c) := by
  rcases reFile_cases d cat acc f with h | ⟨h1, h2⟩ | ⟨h1, h2, h3, h4⟩
    | ⟨h1, h2, h5⟩
  · rw [reFile_system d cat acc f h]
    exact ⟨rfl, fun c _ => rfl⟩
  · rw [reFile_statFail d cat acc f h1 h2]
    exact ⟨rfl, fun c _ => rfl⟩
  · rw [reFile_nochange d cat acc f h1 h2 h3 h4]
    exact ⟨rfl, fun c _ => rfl⟩
  · have hcm := placed_no_catmove cat f h1 h2 hpl
    have hfs1 : reChangeFs1 acc.1.folders cat f = acc.1.folders := by
      unfold reChangeFs1
      rw [hcm]
      simp
    have hdest : reChangeDest cat f = cat := by
      unfold reChangeDest
      rw [hcm]
      simp
    cases d with
    | true =>
      rw [reFile_change_dry cat acc f h1 h2 h5]
      rw [show ({ acc.1 with
          folders := reChangeFs1 acc.1.folders cat f } : RootState).folders
        = reChangeFs1 acc.1.folders cat f from rfl, hfs1]
      exact ⟨rfl, fun c _ => rfl⟩
    | false =>
      by_cases hself : (reChangeDest cat f == cat
          && reChangeFinal acc.1.folders cat acc.2.2 f == f.name) = true
      · rw [reFile_change_self cat acc f h1 h2 h5 hself]
        rw [show ({ acc.1 with
            folders := reChangeFs1 acc.1.folders cat f } : RootState).folders
          = reChangeFs1 acc.1.folders cat f from rfl, hfs1]
        exact ⟨rfl, fun c _ => rfl⟩
      · have hselff : (reChangeDest cat f == cat
            && reChangeFinal acc.1.folders cat acc.2.2 f == f.name)
              = false := by simpa using hself
        by_cases hmv : f.moveFails = true
        · rw [reFile_change_movefail cat acc f h1 h2 h5 hselff hmv]
          rw [show ({ acc.1 with
              folders := reChangeFs1 acc.1.folders cat f }
                : RootState).folders
            = reChangeFs1 acc.1.folders cat f from rfl, hfs1]
          exact ⟨rfl, fun c _ => rfl⟩
        · have hmvf : f.moveFails = false := by simpa using hmv
          rw [reFile_change_move cat acc f h1 h2 h5 hselff hmvf]
          constructor
          · simp only [map_category_addFile, map_category_removeFile, hfs1]
          · intro c hc
            show filesOf (addFile (removeFile (reChangeFs1 acc.1.folders
              cat f) cat f.name) (reChangeDest cat f)
              { f with name := reChangeFinal acc.1.folders cat acc.2.2 f }) c
              = filesOf acc.1.folders c
            rw [hdest, hfs1]
            rw [filesOf_addFile_ne _ _ _ _ hc, filesOf_removeFile_ne _ _ _ _ hc]

theorem filesOf_mem (fs : List Folder) (cat : String)
    (h : cat ∈ fs.map Folder.category) :
    ∃ fo ∈ fs, fo.category = cat ∧ filesOf fs cat = fo.files := by
  induction fs with
  | nil => simp at h
  | cons g rest ih =>
    by_cases hg : g.category = cat
    · refine ⟨g, by simp, hg, ?_⟩
      show (if (g.category == cat) = true then g.files
        else filesOf rest cat) = g.files
      rw [beq_iff_eq.mpr hg]
      simp
    · have hmem : cat ∈ rest.map Folder.category := by
        rw [List.map_cons] at h
        rcases List.mem_cons.mp h with hc | hc
        · exact absurd hc.symm hg
        · exact hc
      rcases ih hmem with ⟨fo, hfo, hcat, hfiles⟩
      refine ⟨fo, by simp [hfo], hcat, ?_⟩
      show (if (g.category == cat) = true then g.files
        else filesOf rest cat) = fo.files
      rw [show (g.category == cat) = false from beq_eq_false_iff_ne.mpr hg]
      simpa using hfiles

theorem reFolderFold_placed (d : Bool) (cat : String) (files : List FileRec)
    (hall : ∀ f ∈ files, correctlyPlaced cat f = true) :
    ∀ (acc : RootState × Stats × Bool),
    ((files.foldl (reanalyzeFile d cat) acc).1.folders.map Folder.category
      = acc.1.folders.map Folder.category)
    ∧ (∀ c, c ≠ cat →
      filesOf ((files.foldl (reanalyzeFile d cat) acc).1.folders) c
        = filesOf acc.1.folders c) := by
  induction files with
  | nil => intro acc; exact ⟨rfl, fun c _ => rfl⟩
  | cons f rest ih =>
    intro acc
    have hstep := reFile_placed_state d cat acc f (hall f (by simp))
    have hrest := ih (fun g hg => hall g (by simp [hg]))
      (reanalyzeFile d cat acc f)
    constructor
    · rw [List.foldl_cons, hrest.1, hstep.1]
    · intro c hc
      rw [List.foldl_cons, hrest.2 c hc, hstep.2 c hc]

theorem reCatsFold_placed (cats : List String) (d : Bool) (s0 : List Folder)
    (hplaced : allPlacedOk s0) :
    ∀ (acc : RootState × Stats × Bool),
    cats.Nodup →
    (∀ c ∈ cats, c ∈ s0.map Folder.category) →
    (acc.1.folders.map Folder.category = s0.map Folder.category) →
    (∀ c ∈ cats, filesOf acc.1.folders c = filesOf s0 c) →
    ((cats.foldl (reanalyzeFolder d) acc).1.folders.map Folder.category
      = s0.map Folder.category) := by
  induction cats with
  | nil => intro acc _ _ hmap _; exact hmap
  | cons cat rest ih =>
    intro acc hnd hmem hmap hfiles
    rw [List.nodup_cons] at hnd
    have hsnap : filesOf acc.1.folders cat = filesOf s0 cat :=
      hfiles cat (by simp)
    have hall : ∀ f ∈ filesOf acc.1.folders cat,
        correctlyPlaced cat f = true := by
      rw [hsnap]
      rcases filesOf_mem s0 cat (hmem cat (by simp)) with
        ⟨fo, hfo, hcat, hfof⟩
      rw [hfof]
      intro f hf
      have := hplaced fo hfo f hf
      rw [hcat] at this
      exact this
    have hfold := reFolderFold_placed d cat (filesOf acc.1.folders cat)
      hall acc
    have hfolder : reanalyzeFolder d acc cat
        = (filesOf acc.1.folders cat).foldl (reanalyzeFile d cat) acc := rfl
    rw [List.foldl_cons]
    refine ih (reanalyzeFolder d acc cat) hnd.2
      (fun c hc => hmem c (by simp [hc])) ?_ ?_
    · rw [hfolder, hfold.1, hmap]
    · intro c hc
      have hne : c ≠ cat := fun hcc => hnd.1 (hcc ▸ hc)
      rw [hfolder, hfold.2 c hne]
      exact hfiles c (by simp [hc])

/-- C9 counterexample: organizing an empty root — where no category folder
is needed for any file — still creates every `Organized_<Category>` folder
plus `Organized_Other`, contradicting "a folder is only created when
needed". -/
theorem c9_counterexample :
    exEmptyState.rootFiles = [] ∧ exEmptyState.folders = []
    ∧ (organize_files_in_folder exEmptyState false).1.folders
        = all_categories.map (fun c => ⟨c, []⟩) :=
  ⟨rfl, rfl, by decide⟩

/-- C9 (amended): OrganizePass creates all category folders plus `Other`
eagerly at the start of each pass rather than lazily; creation is
idempotent (`exist_ok`: creating an existing folder is a no-op);
ReconcilePass only ever adds folders named for a category of the fixed set
(lazily, for a detected category change: when every file is already
correctly placed, it adds none).  In the model every folder lives directly
under the scanned root, so none is ever nested. -/
theorem c9_folder_creation :
    (∀ (fs : List Folder) (c : String), c ∈ all_categories →
      hasFolder (create_organized_folders fs) c = true)
    ∧ (∀ (fs : List Folder) (c : String), hasFolder fs c = true →
      mkdirExistOk fs c = fs)
    ∧ (∀ (s : RootState) (client : Bool) (d : Bool) (c : String),
      c ∈ ((reanalyze_organized_files s client d).1.folders.map
        Folder.category) →
      c ∈ s.folders.map Folder.category ∨ c ∈ all_categories)
    ∧ (∀ (s : RootState) (client : Bool) (d : Bool),
      (s.folders.map Folder.category).Nodup → allPlacedOk s.folders →
      (reanalyze_organized_files s client d).1.folders.map Folder.category
        = s.folders.map Folder.category) := by
  refine ⟨?_, ?_, ?_, ?_⟩
  · intro fs c hc
    exact hasFolder_foldl_mem all_categories fs c hc
  · intro fs c h
    unfold mkdirExistOk
    rw [h]
    simp
  · intro s client d c hc
    unfold reanalyze_organized_files at hc
    split at hc
    · exact Or.inl hc
    · exact reCats_folders_cats _ d (s, Stats.zero, client) c hc
  · intro s client d hnd hplaced
    unfold reanalyze_organized_files
    split
    · rfl
    · exact reCatsFold_placed (s.folders.map Folder.category) d s.folders
        hplaced (s, Stats.zero, client) hnd (fun c hc => hc) rfl
        (fun c hc => rfl)

/-- Witness for the amended C9 at concrete inputs. -/
theorem c9_witness :
    (hasFolder (create_organized_folders []) "Images" = true)
    ∧ (mkdirExistOk [⟨"Code", []⟩] "Code" = [⟨"Code", []⟩])
    ∧ ("Code" ∈ exCrossState.folders.map Folder.category
        ∨ "Code" ∈ all_categories)
    ∧ ((reanalyze_organized_files exSysState false false).1.folders.map
        Folder.category = exSysState.folders.map Folder.category) :=
  ⟨c9_folder_creation.1 [] "Images" (by decide),
   c9_folder_creation.2.1 [⟨"Code", []⟩] "Code" (by decide),
   c9_folder_creation.2.2.1 exCrossState false false "Code" (by decide),
   c9_folder_creation.2.2.2 exSysState false false (by decide)
     (by intro fo hfo f hf
         fin_cases hfo
         fin_cases hf
         decide)⟩

/-! ### Claim C1 -/

/-- C1 counterexample.  First input: a misplaced `x.py` in
`Organized_Documents` with `Organized_Code` scanned later — the live run
moves it and then counts it again, so the dry and live stats differ.
Second input: the same misplaced file with no `Organized_Code` folder — the
dry run still creates that folder, a filesystem mutation. -/
theorem c1_counterexample :
    ((reanalyze_organized_files exCrossState false true).2.1
      ≠ (reanalyze_organized_files exCrossState false false).2.1)
    ∧ ((reanalyze_organized_files exNoCodeState false true).1.folders
      ≠ exNoCodeState.folders) := by
  constructor
  · decide
  · decide

theorem reFile_dry_live_snd (cat : String)
    (accD accL : RootState × Stats × Bool) (f : FileRec)
    (hpl : correctlyPlaced cat f = true) (hmv : f.moveFails = false)
    (hsame : accD.2 = accL.2) :
    (reanalyzeFile true cat accD f).2 = (reanalyzeFile false cat accL f).2 := by
  have hst : accD.2.1 = accL.2.1 := by rw [hsame]
  have hcl : accD.2.2 = accL.2.2 := by rw [hsame]
  rcases reFile_cases false cat accL f with h | ⟨h1, h2⟩ | ⟨h1, h2, h3, h4⟩
    | ⟨h1, h2, h5⟩
  · rw [reFile_system true cat accD f h, reFile_system false cat accL f h]
    rw [hst, hcl]
  · rw [reFile_statFail true cat accD f h1 h2,
      reFile_statFail false cat accL f h1 h2]
    rw [hst, hcl]
  · rw [reFile_nochange true cat accD f h1 h2 h3 (by rw [hcl]; exact h4),
      reFile_nochange false cat accL f h1 h2 h3 h4]
    rw [hst, hcl]
  · have h5D : (reCat f != cat || reFilename accD.2.2 f != f.name)
        = true := by
      rw [hcl]
      exact h5
    rw [reFile_change_dry cat accD f h1 h2 h5D]
    by_cases hself : (reChangeDest cat f == cat
        && reChangeFinal accL.1.folders cat accL.2.2 f == f.name) = true
    · rw [reFile_change_self cat accL f h1 h2 h5 hself]
      rw [hst, hcl]
    · have hselff : (reChangeDest cat f == cat
          && reChangeFinal accL.1.folders cat accL.2.2 f == f.name)
            = false := by simpa using hself
      rw [reFile_change_move cat accL f h1 h2 h5 hselff hmv]
      rw [hst, hcl]

theorem reFolderFold_dry_live (cat : String) (files : List FileRec)
    (hall : ∀ f ∈ files, correctlyPlaced cat f = true
      ∧ f.moveFails = false) :
    ∀ (accD accL : RootState × Stats × Bool), accD.2 = accL.2 →
    (files.foldl (reanalyzeFile true cat) accD).2
      = (files.foldl (reanalyzeFile false cat) accL).2 := by
  induction files with
  | nil => intro accD accL hsame; exact hsame
  | cons f rest ih =>
    intro accD accL hsame
    rw [List.foldl_cons, List.foldl_cons]
    exact ih (fun g hg => hall g (by simp [hg]))
      (reanalyzeFile true cat accD f) (reanalyzeFile false cat accL f)
      (reFile_dry_live_snd cat accD accL f (hall f (by simp)).1
        (hall f (by simp)).2 hsame)

theorem reCatsFold_dry_live (cats : List String) (s0 : List Folder)
    (hplaced : allPlacedOk s0)
    (hmvall : ∀ fo ∈ s0, ∀ f ∈ fo.files, f.moveFails = false) :
    ∀ (accD accL : RootState × Stats × Bool),
    cats.Nodup →
    (∀ c ∈ cats, c ∈ s0.map Folder.category) →
    (∀ c ∈ cats, filesOf accD.1.folders c = filesOf s0 c) →
    (∀ c ∈ cats, filesOf accL.1.folders c = filesOf s0 c) →
    accD.2 = accL.2 →
    (cats.foldl (reanalyzeFolder true) accD).2
      = (cats.foldl (reanalyzeFolder false) accL).2 := by
  induction cats with
  | nil => intro accD accL _ _ _ _ hsame; exact hsame
  | cons cat rest ih =>
    intro accD accL hnd hmem hfilesD hfilesL hsame
    rw [List.nodup_cons] at hnd
    rcases filesOf_mem s0 cat (hmem cat (by simp)) with
      ⟨fo, hfo, hcat, hfof⟩
    have hall : ∀ f ∈ filesOf s0 cat,
        correctlyPlaced cat f = true ∧ f.moveFails = false := by
      rw [hfof]
      intro f hf
      constructor
      · have := hplaced fo hfo f hf
        rw [hcat] at this
        exact this
      · exact hmvall fo hfo f hf
    have hD : reanalyzeFolder true accD cat
        = (filesOf s0 cat).foldl (reanalyzeFile true cat) accD := by
      show (filesOf accD.1.folders cat).foldl (reanalyzeFile true cat) accD
        = _
      rw [hfilesD cat (by simp)]
    have hL : reanalyzeFolder false accL cat
        = (filesOf s0 cat).foldl (reanalyzeFile false cat) accL := by
      show (filesOf accL.1.folders cat).foldl (reanalyzeFile false cat) accL
        = _
      rw [hfilesL cat (by simp)]
    have hsame2 := reFolderFold_dry_live cat (filesOf s0 cat) hall accD accL
      hsame
    rw [List.foldl_cons, List.foldl_cons]
    apply ih (reanalyzeFolder true accD cat) (reanalyzeFolder false accL cat)
      hnd.2 (fun c hc => hmem c (by simp [hc]))
    · intro c hc
      rw [hD]
      rw [(reFolderFold_dry cat (filesOf s0 cat) accD).1 c]
      exact hfilesD c (by simp [hc])
    · intro c hc
      have hne : c ≠ cat := fun hcc => hnd.1 (hcc ▸ hc)
      rw [hL]
      rw [(reFolderFold_placed false cat (filesOf s0 cat)
        (fun f hf => (hall f hf).1) accL).2 c hne]
      exact hfilesL c (by simp [hc])
    · rw [hD, hL]
      exact hsame2

/-- C1 (amended): a dry reconcile run moves no file, writes no log entry,
and leaves the root listing untouched (it may still create missing
destination category folders, and a live run that moves a file across
folders may enumerate and count it again in a later-scanned folder, which
is why the equal-stats part below requires every file to be correctly
placed already).  Under that hypothesis — distinct folder names, all files
correctly placed, no move faults — dry and live runs return identical
stats. -/
theorem c1_dry_run_equivalence :
    (∀ (s : RootState) (client : Bool),
      (∀ c, filesOf (reanalyze_organized_files s client true).1.folders c
        = filesOf s.folders c)
      ∧ (reanalyze_organized_files s client true).1.log = s.log
      ∧ (reanalyze_organized_files s client true).1.rootFiles = s.rootFiles)
    ∧ (∀ (s : RootState) (client : Bool),
      (s.folders.map Folder.category).Nodup →
      allPlacedOk s.folders →
      (∀ fo ∈ s.folders, ∀ f ∈ fo.files, f.moveFails = false) →
      (reanalyze_organized_files s client true).2.1
        = (reanalyze_organized_files s client false).2.1) := by
  constructor
  · intro s client
    unfold reanalyze_organized_files
    split
    · exact ⟨fun c => rfl, rfl, rfl⟩
    · have h := reCatsFold_dry (s.folders.map Folder.category)
        (s, Stats.zero, client)
      exact ⟨h.1, h.2.1, h.2.2.1⟩
  · intro s client hnd hplaced hmvall
    unfold reanalyze_organized_files
    split
    · rfl
    · have h := reCatsFold_dry_live (s.folders.map Folder.category)
        s.folders hplaced hmvall (s, Stats.zero, client)
        (s, Stats.zero, client) hnd (fun c hc => hc)
        (fun c _ => rfl) (fun c _ => rfl) rfl
      show some _ = some _
      rw [show ((s.folders.map Folder.category).foldl (reanalyzeFolder true)
        (s, Stats.zero, client)).2.1
        = ((s.folders.map Folder.category).foldl (reanalyzeFolder false)
          (s, Stats.zero, client)).2.1 by rw [h]]

/-- Witness for the amended C1: the twin-document state is correctly
placed, and its dry and live stats agree. -/
theorem c1_witness :
    (reanalyze_organized_files exTwinState false true).2.1
      = (reanalyze_organized_files exTwinState false false).2.1 :=
  c1_dry_run_equivalence.2 exTwinState false (by decide)
    (by intro fo hfo f hf
        fin_cases hfo
        fin_cases hf <;> decide)
    (by intro fo hfo f hf
        fin_cases hfo
        fin_cases hf <;> decide)


/-! ### Suffix preservation: a conflict-resolved rename keeps the extension

The reconcile pass rebuilds every destination name as
`new_name + original_suffix` (possibly with a `_n` counter spliced in
before the suffix).  These lemmas show that `pathlib`'s `suffix` of such a
name is exactly the original suffix again, so a renamed file is classified
into the same category as before.  This is the heart of the idempotence
claim. -/

theorem mk_toList (s : String) : String.mk s.toList = s := rfl

theorem toList_append (a b : String) :
    (a ++ b).toList = a.toList ++ b.toList :=
  String.data_append a b

theorem lastDot_no_dot (l : List Char) (h : lastDot l = none) :
    ∀ c ∈ l, c ≠ '.' := by
  induction l with
  | nil => intro c hc; simp at hc
  | cons a cs ih =>
    intro c hc
    cases hcs : lastDot cs with
    | some i =>
      simp only [lastDot, hcs] at h
      simp at h
    | none =>
      simp only [lastDot, hcs] at h
      by_cases ha : (a == '.') = true
      · rw [if_pos ha] at h
        simp at h
      · rcases List.mem_cons.mp hc with rfl | hc2
        · intro hcc
          exact ha (by rw [hcc]; decide)
        · exact ih hcs c hc2

theorem lastDot_of_no_dot (l : List Char) (h : ∀ c ∈ l, c ≠ '.') :
    lastDot l = none := by
  induction l with
  | nil => rfl
  | cons a cs ih =>
    have ha : (a == '.') = false :=
      beq_eq_false_iff_ne.mpr (h a (by simp))
    simp only [lastDot, ih (fun c hc => h c (by simp [hc])), ha]
    simp

theorem lastDot_drop (l : List Char) :
    ∀ i, lastDot l = some i →
      ∃ rest, l.drop i = '.' :: rest ∧ ∀ c ∈ rest, c ≠ '.' := by
  induction l with
  | nil => intro i h; simp [lastDot] at h
  | cons a cs ih =>
    intro i h
    cases hcs : lastDot cs with
    | some j =>
      simp only [lastDot, hcs] at h
      have hij : i = j + 1 := (Option.some.inj h).symm
      subst hij
      rcases ih j hcs with ⟨rest, hdrop, hfree⟩
      exact ⟨rest, by simpa using hdrop, hfree⟩
    | none =>
      simp only [lastDot, hcs] at h
      by_cases ha : (a == '.') = true
      · rw [if_pos ha] at h
        have hi0 : i = 0 := (Option.some.inj h).symm
        subst hi0
        refine ⟨cs, ?_, lastDot_no_dot cs hcs⟩
        rw [List.drop_zero, eq_of_beq ha]
      · rw [if_neg ha] at h
        simp at h

theorem lastDot_append_some (l1 l2 : List Char) (i : Nat)
    (h : lastDot l2 = some i) :
    lastDot (l1 ++ l2) = some (l1.length + i) := by
  induction l1 with
  | nil => simpa using h
  | cons a cs ih =>
    simp only [List.cons_append, lastDot, List.append_eq, ih]
    simp only [List.length_cons]
    congr 1
    omega

theorem lastDot_append_none (l1 l2 : List Char) (h : lastDot l2 = none) :
    lastDot (l1 ++ l2) = lastDot l1 := by
  induction l1 with
  | nil => simpa using h
  | cons a cs ih =>
    simp only [List.cons_append, lastDot, List.append_eq, ih]

theorem pySuffix_shape (name : String) :
    pySuffix name = "" ∨
      ∃ rest, (pySuffix name).toList = '.' :: rest ∧ rest ≠ []
        ∧ ∀ c ∈ rest, c ≠ '.' := by
  cases h : lastDot name.toList with
  | none =>
    left
    unfold pySuffix
    rw [h]
  | some i =>
    by_cases hcond : 0 < i ∧ i < name.toList.length - 1
    · right
      have hps : pySuffix name = String.mk (name.toList.drop i) := by
        unfold pySuffix
        simp only [h]
        rw [if_pos hcond]
      rcases lastDot_drop name.toList i h with ⟨rest, hdrop, hfree⟩
      refine ⟨rest, ?_, ?_, hfree⟩
      · rw [hps, toList_mk, hdrop]
      · intro hnil
        have hlen := congrArg List.length hdrop
        rw [List.length_drop, hnil, List.length_cons, List.length_nil] at hlen
        omega
    · left
      unfold pySuffix
      simp only [h]
      rw [if_neg hcond]

theorem pySuffix_append_list (al : List Char) (sfx : String) (hne : al ≠ [])
    (hshape : sfx = "" ∨ ∃ rest, sfx.toList = '.' :: rest ∧ rest ≠ []
      ∧ ∀ c ∈ rest, c ≠ '.')
    (hdf : sfx = "" → ∀ c ∈ al, c ≠ '.') :
    pySuffix (String.mk (al ++ sfx.toList)) = sfx := by
  rcases hshape with hE | ⟨rest, hsl, hrne, hrfree⟩
  · subst hE
    have h0 : ("" : String).toList = [] := rfl
    rw [h0, List.append_nil]
    have hnone : lastDot al = none := lastDot_of_no_dot al (hdf rfl)
    unfold pySuffix
    rw [toList_mk]
    simp only [hnone]
  · have hrnone : lastDot rest = none := lastDot_of_no_dot rest hrfree
    have hld2 : lastDot sfx.toList = some 0 := by
      rw [hsl]
      simp only [lastDot, hrnone]
      rw [if_pos (show ('.' == '.') = true by decide)]
    have hld : lastDot (al ++ sfx.toList) = some al.length := by
      have h1 := lastDot_append_some al sfx.toList 0 hld2
      rw [Nat.add_zero] at h1
      exact h1
    unfold pySuffix
    rw [toList_mk]
    simp only [hld]
    have hcond : 0 < al.length
        ∧ al.length < (al ++ sfx.toList).length - 1 := by
      constructor
      · exact List.length_pos.mpr hne
      · rw [List.length_append, hsl]
        have hr1 : 0 < rest.length := List.length_pos.mpr hrne
        simp only [List.length_cons]
        omega
    rw [if_pos hcond]
    rw [List.drop_left]
    exact mk_toList sfx

theorem repr_data_eq_natChars (n : Nat) :
    (Nat.repr n).data = natChars n := by
  unfold Nat.repr Nat.toDigits
  rw [toDigitsCore_eq_natChars (n + 1) n [] (by omega)]
  simp [List.asString]

theorem natChars_digits (n : Nat) :
    ∀ c ∈ natChars n, ∃ d, d < 10 ∧ c = Nat.digitChar d := by
  induction n using Nat.strong_induction_on with
  | _ n ih =>
    rw [natChars]
    split
    · rename_i h
      intro c hc
      simp at hc
      exact ⟨n, h, hc⟩
    · rename_i h
      intro c hc
      rcases List.mem_append.mp hc with h1 | h2
      · exact ih (n / 10) (Nat.div_lt_self (by omega) (by omega)) c h1
      · simp at h2
        exact ⟨n % 10, Nat.mod_lt _ (by omega), h2⟩

theorem repr_no_dot (n : Nat) : ∀ c ∈ (Nat.repr n).data, c ≠ '.' := by
  rw [repr_data_eq_natChars]
  intro c hc
  rcases natChars_digits n c hc with ⟨d, hd, rfl⟩
  interval_cases d <;> decide

theorem conflictCandidate_ne_empty (base sfx : String) (hb : base ≠ "")
    (k : Nat) : conflictCandidate base sfx k ≠ "" := by
  apply ne_empty_of_toList_ne_nil
  cases k with
  | zero =>
    show (base ++ sfx).toList ≠ []
    rw [toList_append]
    intro hc
    exact toList_ne_nil_of_ne_empty base hb (List.append_eq_nil.mp hc).1
  | succ k =>
    show (base ++ "_" ++ Nat.repr (k + 1) ++ sfx).toList ≠ []
    rw [toList_append, toList_append, toList_append]
    intro hc
    exact toList_ne_nil_of_ne_empty base hb
      (List.append_eq_nil.mp
        ((List.append_eq_nil.mp ((List.append_eq_nil.mp hc).1)).1)).1

theorem pySuffix_conflictCandidate (base sfx : String) (k : Nat)
    (hb : base ≠ "")
    (hshape : sfx = "" ∨ ∃ rest, sfx.toList = '.' :: rest ∧ rest ≠ []
      ∧ ∀ c ∈ rest, c ≠ '.')
    (hdf : sfx = "" → dotFree base = true) :
    pySuffix (conflictCandidate base sfx k) = sfx := by
  have hbdot : sfx = "" → ∀ c ∈ base.toList, c ≠ '.' := by
    intro h0 c hc
    have := (List.all_eq_true.mp (hdf h0)) c hc
    simpa using this
  cases k with
  | zero =>
    show pySuffix (base ++ sfx) = sfx
    rw [show base ++ sfx = String.mk (base.toList ++ sfx.toList) by
      rw [← toList_append, mk_toList]]
    exact pySuffix_append_list base.toList sfx
      (toList_ne_nil_of_ne_empty base hb) hshape hbdot
  | succ k =>
    show pySuffix (base ++ "_" ++ Nat.repr (k + 1) ++ sfx) = sfx
    have hsplit : base ++ "_" ++ Nat.repr (k + 1) ++ sfx
        = String.mk ((base.toList ++ '_' :: (Nat.repr (k + 1)).data)
            ++ sfx.toList) := by
      rw [← mk_toList (base ++ "_" ++ Nat.repr (k + 1) ++ sfx)]
      rw [toList_append, toList_append, toList_append]
      rw [List.append_assoc base.toList]
      rfl
    rw [hsplit]
    apply pySuffix_append_list
    · intro hc
      exact toList_ne_nil_of_ne_empty base hb (List.append_eq_nil.mp hc).1
    · exact hshape
    · intro h0 c hc
      rcases List.mem_append.mp hc with h1 | h2
      · exact hbdot h0 c h1
      · rcases List.mem_cons.mp h2 with rfl | h3
        · decide
        · exact repr_no_dot (k + 1) c h3

theorem resolveConflict_is_candidate (occ : String → Bool)
    (base sfx : String) :
    ∀ fuel n, ∃ k,
      resolveConflict occ base sfx fuel n = conflictCandidate base sfx k := by
  intro fuel
  induction fuel with
  | zero => intro n; exact ⟨n, rfl⟩
  | succ fuel ih =>
    intro n
    unfold resolveConflict
    split
    · exact ih (n + 1)
    · exact ⟨n, rfl⟩

/-! ### The namer never emits an empty or dotted base name -/

theorem pySanitize_ne_empty (s : String) (h : s ≠ "") :
    pySanitize s ≠ "" := by
  apply ne_empty_of_toList_ne_nil
  unfold pySanitize
  rw [toList_mk]
  intro hc
  exact toList_ne_nil_of_ne_empty s h (List.map_eq_nil_iff.mp hc)

theorem photoDateName_ne_empty (d : String) : photoDateName d ≠ "" := by
  apply ne_empty_of_toList_ne_nil
  unfold photoDateName
  rw [toList_append]
  simp

theorem matchesSanitized_ne_empty (s : String)
    (h : matchesSanitized s = true) : s ≠ "" := by
  unfold matchesSanitized at h
  rw [Bool.and_eq_true] at h
  apply ne_empty_of_toList_ne_nil
  intro hc
  have := h.1
  rw [hc] at this
  simp at this

theorem fallbackName_ne_empty (base_name suffixLower : String)
    (md : Metadata) (content : String) (hb : base_name ≠ "") :
    fallbackName base_name suffixLower md content ≠ "" := by
  unfold fallbackName
  split
  · exact photoDateName_ne_empty _
  · split
    · rename_i hcond
      simp only [Bool.and_eq_true, decide_eq_true_eq] at hcond
      apply matchesSanitized_ne_empty
      apply joinWords_matches _ hcond.2
      intro w hw
      exact findWords_spec _ w hw
    · exact pySanitize_ne_empty _ hb

theorem reName_ne_empty (client : Bool) (f : FileRec) (hne : f.name ≠ "") :
    reName client f ≠ "" := by
  have hstem := pyStem_ne_empty f.name hne
  unfold reName generate_smart_filename
  split
  · split
    · rename_i hcond
      rw [Bool.and_eq_true] at hcond
      have h1 := hcond.1
      rw [bne_iff_ne] at h1
      exact h1
    · exact fallbackName_ne_empty _ _ _ _ hstem
  · exact fallbackName_ne_empty _ _ _ _ hstem

theorem sanitizeChar_ne_dot (c : Char) : sanitizeChar c ≠ '.' := by
  unfold sanitizeChar
  split
  · rename_i h
    intro hc
    subst hc
    exact absurd h (by decide)
  · decide

theorem pySanitize_dotFree (s : String) : dotFree (pySanitize s) = true := by
  unfold dotFree pySanitize
  rw [toList_mk, List.all_eq_true]
  intro c hc
  rcases List.mem_map.mp hc with ⟨c0, _, rfl⟩
  have := sanitizeChar_ne_dot c0
  simpa using this

theorem class_ne_dot (c : Char)
    (h : (c.isAlphanum || c == '_' || c == '-') = true) :
    (c != '.') = true := by
  by_cases hc : c = '.'
  · subst hc
    exact absurd h (by decide)
  · rw [bne_iff_ne]
    exact hc

theorem joinWords_dotFree (ws : List String)
    (hall : ∀ w ∈ ws, w.toList.all Char.isAlpha = true) :
    dotFree (joinWords ws) = true := by
  unfold dotFree joinWords
  rw [toList_mk, List.all_eq_true]
  intro c hc
  rcases List.mem_map.mp hc with ⟨c0, hc0, rfl⟩
  have hcls := joinChars_all ((ws.take 3).map String.toList) ?_
  · exact class_ne_dot _ (toLower_keeps_class c0
      ((List.all_eq_true.mp hcls) c0 hc0))
  · intro w hw
    rcases List.mem_map.mp hw with ⟨w0, hw0, rfl⟩
    exact hall w0 (List.mem_of_mem_take hw0)

theorem analyze_fst_dotFree (client : Bool) (r : AIOutcome) :
    dotFree (analyze_content_with_ai client r).1 = true := by
  cases client with
  | false => rfl
  | true =>
    cases r with
    | ok t => exact pySanitize_dotFree (pyStrip t)
    | err m =>
      rw [analyze_err_suggestion true m]
      rfl

theorem extract_metadata_photo_none (f : FileRec)
    (hsfx : pySuffix f.name = "") :
    (extract_metadata f).photo_date = none := by
  have hfield : (extract_metadata f).photo_date
      = if exif_exts.contains (pyLower (pySuffix f.name)) then f.photo_date
        else none := rfl
  rw [hfield, hsfx]
  rw [if_neg (by decide)]

theorem fallbackName_dotFree (base_name suffixLower : String)
    (md : Metadata) (content : String) (hpd : md.photo_date = none) :
    dotFree (fallbackName base_name suffixLower md content) = true := by
  have hred : fallbackName base_name suffixLower md content
      = if (content != ""
            && document_name_exts.contains suffixLower
            && decide ((findWords (strTake content 200)).length ≥ 2)) = true
        then joinWords (findWords (strTake content 200))
        else pySanitize base_name := by
    unfold fallbackName
    rw [hpd]
  rw [hred]
  split
  · apply joinWords_dotFree
    intro w hw
    exact (findWords_spec _ w hw).2
  · exact pySanitize_dotFree _

theorem reName_dotFree (client : Bool) (f : FileRec)
    (hsfx : pySuffix f.name = "") : dotFree (reName client f) = true := by
  have hpd := extract_metadata_photo_none f hsfx
  unfold reName generate_smart_filename
  split
  · split
    · exact analyze_fst_dotFree client f.aiResponse
    · exact fallbackName_dotFree _ _ _ _ hpd
  · exact fallbackName_dotFree _ _ _ _ hpd

/-! ### A conflict-resolved rename cannot change the classifier category -/

theorem get_file_type_snd_suffix (n1 n2 : String) (m : Option String)
    (h : pySuffix n1 = pySuffix n2) :
    (get_file_type true n1 m).2 = (get_file_type true n2 m).2 := by
  unfold get_file_type
  rw [h]

theorem reCat_conflictCandidate (client : Bool) (f : FileRec)
    (hne : f.name ≠ "") (k : Nat) :
    reCat { f with name := (conflictCandidate (reName client f)
      (pySuffix f.name) k) } = reCat f := by
  show (get_file_type true (conflictCandidate (reName client f)
    (pySuffix f.name) k) f.mime).2 = (get_file_type true f.name f.mime).2
  apply get_file_type_snd_suffix
  exact pySuffix_conflictCandidate _ _ k (reName_ne_empty client f hne)
    (pySuffix_shape f.name) (fun h0 => reName_dotFree client f h0)

theorem reCat_reChangeFinal (fs : List Folder) (cat : String)
    (client : Bool) (f : FileRec) (hne : f.name ≠ "") :
    reCat { f with name := reChangeFinal fs cat client f } = reCat f := by
  obtain ⟨k, hk⟩ := resolveConflict_is_candidate
    (fun c => pathExists (reChangeFs1 fs cat f) (reChangeDest cat f) c
      && !(reChangeDest cat f == cat && c == f.name))
    (reName client f) (pySuffix f.name)
    ((filesOf (reChangeFs1 fs cat f) (reChangeDest cat f)).length + 1) 0
  unfold reChangeFinal
  rw [hk]
  exact reCat_conflictCandidate client f hne k

theorem reChangeFinal_ne_empty (fs : List Folder) (cat : String)
    (client : Bool) (f : FileRec) (hne : f.name ≠ "") :
    reChangeFinal fs cat client f ≠ "" := by
  obtain ⟨k, hk⟩ := resolveConflict_is_candidate
    (fun c => pathExists (reChangeFs1 fs cat f) (reChangeDest cat f) c
      && !(reChangeDest cat f == cat && c == f.name))
    (reName client f) (pySuffix f.name)
    ((filesOf (reChangeFs1 fs cat f) (reChangeDest cat f)).length + 1) 0
  unfold reChangeFinal
  rw [hk]
  exact conflictCandidate_ne_empty _ _ (reName_ne_empty client f hne) k

/-! ### Listing and mutation facts about the folder state -/

theorem beq_comm_str (a b : String) : (a == b) = (b == a) := by
  by_cases h : a = b
  · subst h
    rfl
  · rw [beq_eq_false_iff_ne.mpr h, beq_eq_false_iff_ne.mpr (Ne.symm h)]

theorem pathExists_eq_contains (fs : List Folder) (cat nm : String) :
    pathExists fs cat nm
      = ((filesOf fs cat).map FileRec.name).contains nm := by
  unfold pathExists
  generalize filesOf fs cat = l
  induction l with
  | nil => rfl
  | cons g gs ih =>
    rw [List.any_cons, ih, List.map_cons, List.contains_cons]
    rw [beq_comm_str g.name nm]

theorem hasFolder_eq_map (fs : List Folder) (c : String) :
    hasFolder fs c = (fs.map Folder.category).any (fun x => x == c) := by
  unfold hasFolder
  induction fs with
  | nil => rfl
  | cons g rest ih => rw [List.any_cons, List.map_cons, List.any_cons, ih]

theorem hasFolder_congr (fs fs2 : List Folder) (c : String)
    (h : fs.map Folder.category = fs2.map Folder.category) :
    hasFolder fs c = hasFolder fs2 c := by
  rw [hasFolder_eq_map, hasFolder_eq_map, h]

theorem hasFolder_of_filesOf_mem (fs : List Folder) (cat : String)
    (g : FileRec) (h : g ∈ filesOf fs cat) : hasFolder fs cat = true := by
  induction fs with
  | nil => simp [filesOf] at h
  | cons fo rest ih =>
    by_cases hc : (fo.category == cat) = true
    · unfold hasFolder
      rw [List.any_cons, hc, Bool.true_or]
    · have hfo : filesOf (fo :: rest) cat = filesOf rest cat := by
        show (if (fo.category == cat) = true then fo.files
          else filesOf rest cat) = filesOf rest cat
        rw [if_neg hc]
      rw [hfo] at h
      unfold hasFolder
      rw [List.any_cons]
      have hrest : rest.any (fun fo2 => fo2.category == cat) = true := ih h
      rw [hrest, Bool.or_true]

theorem mem_of_mem_filesOf (fs : List Folder) (cat : String) (g : FileRec)
    (h : g ∈ filesOf fs cat) :
    ∃ fo, fo ∈ fs ∧ fo.category = cat ∧ g ∈ fo.files := by
  induction fs with
  | nil => simp [filesOf] at h
  | cons fo rest ih =>
    by_cases hc : (fo.category == cat) = true
    · have hfo : filesOf (fo :: rest) cat = fo.files := by
        show (if (fo.category == cat) = true then fo.files
          else filesOf rest cat) = fo.files
        rw [if_pos hc]
      rw [hfo] at h
      exact ⟨fo, by simp, eq_of_beq hc, h⟩
    · have hfo : filesOf (fo :: rest) cat = filesOf rest cat := by
        show (if (fo.category == cat) = true then fo.files
          else filesOf rest cat) = filesOf rest cat
        rw [if_neg hc]
      rw [hfo] at h
      rcases ih h with ⟨fo2, hmem, hcat, hg⟩
      exact ⟨fo2, by simp [hmem], hcat, hg⟩

theorem filesOf_names_nodup (fs : List Folder) (cat : String)
    (h : ∀ fo ∈ fs, (fo.files.map FileRec.name).Nodup) :
    ((filesOf fs cat).map FileRec.name).Nodup := by
  induction fs with
  | nil => simp [filesOf]
  | cons fo rest ih =>
    by_cases hc : (fo.category == cat) = true
    · have hfo : filesOf (fo :: rest) cat = fo.files := by
        show (if (fo.category == cat) = true then fo.files
          else filesOf rest cat) = fo.files
        rw [if_pos hc]
      rw [hfo]
      exact h fo (by simp)
    · have hfo : filesOf (fo :: rest) cat = filesOf rest cat := by
        show (if (fo.category == cat) = true then fo.files
          else filesOf rest cat) = filesOf rest cat
        rw [if_neg hc]
      rw [hfo]
      exact ih (fun fo2 h2 => h fo2 (by simp [h2]))

theorem filesOf_eq_of_mem_nodup (fs : List Folder) (fo : Folder)
    (hnd : (fs.map Folder.category).Nodup) (hfo : fo ∈ fs) :
    filesOf fs fo.category = fo.files := by
  induction fs with
  | nil => simp at hfo
  | cons g rest ih =>
    rw [List.map_cons, List.nodup_cons] at hnd
    rcases List.mem_cons.mp hfo with rfl | hmem
    · show (if (fo.category == fo.category) = true then fo.files
        else filesOf rest fo.category) = fo.files
      rw [if_pos (by simp)]
    · have hne : (g.category == fo.category) = false := by
        rw [beq_eq_false_iff_ne]
        intro hc
        apply hnd.1
        rw [hc]
        exact List.mem_map_of_mem Folder.category hmem
      show (if (g.category == fo.category) = true then g.files
        else filesOf rest fo.category) = fo.files
      rw [hne]
      simp only [Bool.false_eq_true, if_false]
      exact ih hnd.2 hmem

theorem filesOf_eq_nil_of_not_mem (fs : List Folder) (cat : String)
    (h : cat ∉ fs.map Folder.category) : filesOf fs cat = [] := by
  induction fs with
  | nil => rfl
  | cons fo rest ih =>
    rw [List.map_cons] at h
    have hne : (fo.category == cat) = false := by
      rw [beq_eq_false_iff_ne]
      intro hc
      apply h
      rw [hc]
      exact List.mem_cons_self _ _
    show (if (fo.category == cat) = true then fo.files
      else filesOf rest cat) = []
    rw [hne]
    simp only [Bool.false_eq_true, if_false]
    exact ih (fun hm => h (List.mem_cons_of_mem _ hm))

theorem addFile_no_folder (fs : List Folder) (cat : String) (r : FileRec)
    (h : hasFolder fs cat = false) : addFile fs cat r = fs := by
  induction fs with
  | nil => rfl
  | cons fo rest ih =>
    unfold hasFolder at h
    rw [List.any_cons, Bool.or_eq_false_iff] at h
    show (if (fo.category == cat) = true
      then { fo with files := fo.files ++ [r] } :: rest
      else fo :: addFile rest cat r) = fo :: rest
    rw [h.1]
    simp only [Bool.false_eq_true, if_false]
    rw [ih h.2]

theorem filesOf_addFile_self (fs : List Folder) (cat : String) (r : FileRec)
    (h : hasFolder fs cat = true) :
    filesOf (addFile fs cat r) cat = filesOf fs cat ++ [r] := by
  induction fs with
  | nil => simp [hasFolder] at h
  | cons fo rest ih =>
    by_cases hc : (fo.category == cat) = true
    · show filesOf (if (fo.category == cat) = true
        then { fo with files := fo.files ++ [r] } :: rest
        else fo :: addFile rest cat r) cat = _
      rw [if_pos hc]
      show (if (fo.category == cat) = true then fo.files ++ [r]
        else filesOf rest cat)
        = (if (fo.category == cat) = true then fo.files
            else filesOf rest cat) ++ [r]
      rw [hc]
      simp
    · have h2 : hasFolder rest cat = true := by
        have hcF : (fo.category == cat) = false := by simpa using hc
        unfold hasFolder at h
        rw [List.any_cons, hcF, Bool.false_or] at h
        exact h
      show filesOf (if (fo.category == cat) = true
        then { fo with files := fo.files ++ [r] } :: rest
        else fo :: addFile rest cat r) cat = _
      rw [if_neg hc]
      show (if (fo.category == cat) = true then fo.files
        else filesOf (addFile rest cat r) cat)
        = (if (fo.category == cat) = true then fo.files
            else filesOf rest cat) ++ [r]
      have hcF : (fo.category == cat) = false := by simpa using hc
      rw [hcF]
      simp only [Bool.false_eq_true, if_false]
      exact ih h2

theorem filesOf_removeFile_self (fs : List Folder) (cat nm : String) :
    filesOf (removeFile fs cat nm) cat
      = (filesOf fs cat).eraseP (fun g => g.name == nm) := by
  induction fs with
  | nil => rfl
  | cons fo rest ih =>
    by_cases hc : (fo.category == cat) = true
    · show filesOf (if (fo.category == cat) = true
        then { fo with files := fo.files.eraseP (fun g => g.name == nm) }
          :: rest
        else fo :: removeFile rest cat nm) cat = _
      rw [if_pos hc]
      show (if (fo.category == cat) = true
        then fo.files.eraseP (fun g => g.name == nm)
        else filesOf rest cat)
        = (if (fo.category == cat) = true then fo.files
            else filesOf rest cat).eraseP (fun g => g.name == nm)
      rw [hc]
      simp
    · show filesOf (if (fo.category == cat) = true
        then { fo with files := fo.files.eraseP (fun g => g.name == nm) }
          :: rest
        else fo :: removeFile rest cat nm) cat = _
      rw [if_neg hc]
      show (if (fo.category == cat) = true then fo.files
        else filesOf (removeFile rest cat nm) cat)
        = (if (fo.category == cat) = true then fo.files
            else filesOf rest cat).eraseP (fun g => g.name == nm)
      have hcF : (fo.category == cat) = false := by simpa using hc
      rw [hcF]
      simp only [Bool.false_eq_true, if_false]
      exact ih

theorem pathExists_removeFile (fs : List Folder) (cat nm c x : String)
    (h : pathExists (removeFile fs cat nm) c x = true) :
    pathExists fs c x = true := by
  unfold pathExists at h ⊢
  rw [List.any_eq_true] at h ⊢
  rcases h with ⟨g, hg, hx⟩
  by_cases hcc : c = cat
  · subst hcc
    rw [filesOf_removeFile_self] at hg
    exact ⟨g, List.mem_of_mem_eraseP hg, hx⟩
  · rw [filesOf_removeFile_ne fs cat c nm hcc] at hg
    exact ⟨g, hg, hx⟩

theorem mem_mkdirExistOk (fs : List Folder) (c : String) (fo : Folder)
    (h : fo ∈ mkdirExistOk fs c) : fo ∈ fs ∨ fo = ⟨c, []⟩ := by
  unfold mkdirExistOk at h
  split at h
  · exact Or.inl h
  · rcases List.mem_append.mp h with h1 | h2
    · exact Or.inl h1
    · simp at h2
      exact Or.inr h2

theorem folders_prop_removeFile (P : Folder → Prop) (fs : List Folder)
    (cat nm : String)
    (hall : ∀ fo ∈ fs, P fo)
    (hstep : ∀ fo ∈ fs, P { fo with
      files := fo.files.eraseP (fun g => g.name == nm) }) :
    ∀ fo ∈ removeFile fs cat nm, P fo := by
  induction fs with
  | nil => intro fo hfo; simp [removeFile] at hfo
  | cons g rest ih =>
    intro fo hfo
    have hred : removeFile (g :: rest) cat nm
        = if (g.category == cat) = true
          then { g with files := g.files.eraseP (fun g2 => g2.name == nm) }
            :: rest
          else g :: removeFile rest cat nm := rfl
    rw [hred] at hfo
    split at hfo
    · rcases List.mem_cons.mp hfo with rfl | h2
      · exact hstep g (by simp)
      · exact hall fo (by simp [h2])
    · rcases List.mem_cons.mp hfo with rfl | h2
      · exact hall fo (by simp)
      · exact ih (fun x hx => hall x (by simp [hx]))
          (fun x hx => hstep x (by simp [hx])) fo h2

theorem folders_prop_addFile (P : Folder → Prop) (fs : List Folder)
    (cat : String) (r : FileRec)
    (hall : ∀ fo ∈ fs, P fo)
    (hstep : ∀ fo ∈ fs, fo.category = cat →
      P { fo with files := fo.files ++ [r] }) :
    ∀ fo ∈ addFile fs cat r, P fo := by
  induction fs with
  | nil => intro fo hfo; simp [addFile] at hfo
  | cons g rest ih =>
    intro fo hfo
    have hred : addFile (g :: rest) cat r
        = if (g.category == cat) = true
          then { g with files := g.files ++ [r] } :: rest
          else g :: addFile rest cat r := rfl
    rw [hred] at hfo
    split at hfo
    · rename_i hcond
      rcases List.mem_cons.mp hfo with rfl | h2
      · exact hstep g (by simp) (eq_of_beq hcond)
      · exact hall fo (by simp [h2])
    · rcases List.mem_cons.mp hfo with rfl | h2
      · exact hall fo (by simp)
      · exact ih (fun x hx => hall x (by simp [hx]))
          (fun x hx hxc => hstep x (by simp [hx]) hxc) fo h2

theorem names_nodup_addFile (fs : List Folder) (cat : String) (r : FileRec)
    (hall : ∀ fo ∈ fs, (fo.files.map FileRec.name).Nodup)
    (hfresh : pathExists fs cat r.name = false) :
    ∀ fo ∈ addFile fs cat r, (fo.files.map FileRec.name).Nodup := by
  induction fs with
  | nil => intro fo hfo; simp [addFile] at hfo
  | cons g rest ih =>
    intro fo hfo
    have hred : addFile (g :: rest) cat r
        = if (g.category == cat) = true
          then { g with files := g.files ++ [r] } :: rest
          else g :: addFile rest cat r := rfl
    rw [hred] at hfo
    by_cases hc : (g.category == cat) = true
    · rw [if_pos hc] at hfo
      have hfiles : filesOf (g :: rest) cat = g.files := by
        show (if (g.category == cat) = true then g.files
          else filesOf rest cat) = g.files
        rw [if_pos hc]
      rcases List.mem_cons.mp hfo with rfl | h2
      · show ((g.files ++ [r]).map FileRec.name).Nodup
        rw [List.map_append]
        refine List.Nodup.append (hall g (by simp)) (by simp) ?_
        rw [show List.map FileRec.name [r] = [r.name] from rfl]
        rw [List.disjoint_singleton]
        unfold pathExists at hfresh
        rw [hfiles, List.any_eq_false] at hfresh
        intro hmem
        rcases List.mem_map.mp hmem with ⟨g2, hg2, hg2n⟩
        exact hfresh g2 hg2 (beq_iff_eq.mpr hg2n)
      · exact hall fo (by simp [h2])
    · rw [if_neg hc] at hfo
      have hfiles : filesOf (g :: rest) cat = filesOf rest cat := by
        show (if (g.category == cat) = true then g.files
          else filesOf rest cat) = filesOf rest cat
        rw [if_neg hc]
      have hfresh2 : pathExists rest cat r.name = false := by
        unfold pathExists at hfresh ⊢
        rw [hfiles] at hfresh
        exact hfresh
      rcases List.mem_cons.mp hfo with rfl | h2
      · exact hall fo (by simp)
      · exact ih (fun x hx => hall x (by simp [hx])) hfresh2 fo h2

theorem cats_nodup_mkdirExistOk (fs : List Folder) (c : String)
    (h : (fs.map Folder.category).Nodup) :
    ((mkdirExistOk fs c).map Folder.category).Nodup := by
  rw [map_category_mkdirExistOk]
  split
  · exact h
  · rename_i hno
    rw [List.nodup_append]
    refine ⟨h, by simp, ?_⟩
    rw [List.disjoint_singleton]
    intro hmem
    apply hno
    rw [hasFolder_eq_map, List.any_eq_true]
    exact ⟨c, hmem, by simp⟩

theorem reChangeFinal_fresh (fs : List Folder) (cat : String)
    (client : Bool) (f : FileRec)
    (hself : (reChangeDest cat f == cat
      && reChangeFinal fs cat client f == f.name) = false) :
    pathExists (reChangeFs1 fs cat f) (reChangeDest cat f)
      (reChangeFinal fs cat client f) = false := by
  have hocc := resolveConflict_not_occupied
    (fun c => ((filesOf (reChangeFs1 fs cat f)
        (reChangeDest cat f)).map FileRec.name).contains c
      && !(reChangeDest cat f == cat && c == f.name))
    (reName client f) (pySuffix f.name)
    (((filesOf (reChangeFs1 fs cat f)
        (reChangeDest cat f)).map FileRec.name).length + 1) 0
    (exists_free_candidate _
      (fun c => !(reChangeDest cat f == cat && c == f.name))
      (reName client f) (pySuffix f.name) 0)
  rw [show (fun c => ((filesOf (reChangeFs1 fs cat f)
        (reChangeDest cat f)).map FileRec.name).contains c
      && !(reChangeDest cat f == cat && c == f.name))
    = (fun c => pathExists (reChangeFs1 fs cat f) (reChangeDest cat f) c
      && !(reChangeDest cat f == cat && c == f.name)) from
    funext (fun c => by rw [pathExists_eq_contains])] at hocc
  rw [List.length_map] at hocc
  have hfin : resolveConflict
      (fun c => pathExists (reChangeFs1 fs cat f) (reChangeDest cat f) c
        && !(reChangeDest cat f == cat && c == f.name))
      (reName client f) (pySuffix f.name)
      ((filesOf (reChangeFs1 fs cat f) (reChangeDest cat f)).length + 1) 0
      = reChangeFinal fs cat client f := rfl
  rw [hfin] at hocc
  have hocc2 : (pathExists (reChangeFs1 fs cat f) (reChangeDest cat f)
      (reChangeFinal fs cat client f)
    && !(reChangeDest cat f == cat
      && reChangeFinal fs cat client f == f.name)) = false := hocc
  rw [hself] at hocc2
  simpa using hocc2

/-! ### Case shape of the reconcile destination -/

theorem reChange_dest_cases (fs : List Folder) (cat : String) (f : FileRec) :
    ((reCat f != cat) = false ∧ reChangeDest cat f = cat
      ∧ reChangeFs1 fs cat f = fs)
    ∨ ((reCat f != cat) = true ∧ reChangeDest cat f = reCat f
      ∧ reChangeDest cat f ≠ cat
      ∧ reChangeFs1 fs cat f = mkdirExistOk fs (reCat f)) := by
  by_cases hm : (reCat f != cat) = true
  · right
    refine ⟨hm, ?_, ?_, ?_⟩
    · unfold reChangeDest
      rw [if_pos hm]
    · unfold reChangeDest
      rw [if_pos hm]
      exact bne_iff_ne.mp hm
    · unfold reChangeFs1
      rw [if_pos hm]
  · left
    have hmF : (reCat f != cat) = false := by simpa using hm
    refine ⟨hmF, ?_, ?_⟩
    · unfold reChangeDest
      rw [if_neg hm]
    · unfold reChangeFs1
      rw [if_neg hm]

theorem correctlyPlaced_of_reCat (cat : String) (g : FileRec)
    (h : reCat g = cat) : correctlyPlaced cat g = true := by
  unfold correctlyPlaced
  unfold reCat at h
  rw [h]
  simp

theorem reCat_eq_dest (fs : List Folder) (cat : String) (f : FileRec) :
    reCat f = reChangeDest cat f := by
  rcases reChange_dest_cases fs cat f with ⟨hm, hd, _⟩ | ⟨_, hd, _, _⟩
  · rw [hd]
    exact bne_eq_false_iff_eq.mp hm
  · rw [hd]
/-! ### One live reconcile step keeps the state well-formed and only
creates correctly-placed files -/

theorem reFile_establish_step (cat : String) (acc : RootState × Stats × Bool)
    (f : FileRec)
    (hndc : (acc.1.folders.map Folder.category).Nodup)
    (hndn : ∀ fo ∈ acc.1.folders, (fo.files.map FileRec.name).Nodup)
    (hwf : ∀ fo ∈ acc.1.folders, ∀ g ∈ fo.files,
      g.moveFails = false ∧ g.name ≠ "")
    (hmemf : f ∈ filesOf acc.1.folders cat) :
    (((reanalyzeFile false cat acc f).1.folders.map Folder.category).Nodup
      ∧ ∀ fo ∈ (reanalyzeFile false cat acc f).1.folders,
          (fo.files.map FileRec.name).Nodup)
    ∧ (∀ fo ∈ (reanalyzeFile false cat acc f).1.folders, ∀ g ∈ fo.files,
        g.moveFails = false ∧ g.name ≠ "")
    ∧ (∀ c, c ≠ cat →
        ∀ g ∈ filesOf (reanalyzeFile false cat acc f).1.folders c,
          g ∈ filesOf acc.1.folders c ∨ correctlyPlaced c g = true)
    ∧ (∀ g ∈ filesOf (reanalyzeFile false cat acc f).1.folders cat,
        (g ∈ filesOf acc.1.folders cat ∧ g ≠ f)
          ∨ correctlyPlaced cat g = true)
    ∧ (∀ g ∈ filesOf acc.1.folders cat, g.name ≠ f.name →
        g ∈ filesOf (reanalyzeFile false cat acc f).1.folders cat) := by
  obtain ⟨fo0, hfo0, hfo0cat, hffo0⟩ := mem_of_mem_filesOf _ _ _ hmemf
  have hmvf : f.moveFails = false := (hwf fo0 hfo0 f hffo0).1
  have hnef : f.name ≠ "" := (hwf fo0 hfo0 f hffo0).2
  have hsnapnd : ((filesOf acc.1.folders cat).map FileRec.name).Nodup :=
    filesOf_names_nodup _ _ hndn
  have hframe : (reanalyzeFile false cat acc f).1.folders = acc.1.folders →
      correctlyPlaced cat f = true →
      (((reanalyzeFile false cat acc f).1.folders.map Folder.category).Nodup
        ∧ ∀ fo ∈ (reanalyzeFile false cat acc f).1.folders,
            (fo.files.map FileRec.name).Nodup)
      ∧ (∀ fo ∈ (reanalyzeFile false cat acc f).1.folders, ∀ g ∈ fo.files,
          g.moveFails = false ∧ g.name ≠ "")
      ∧ (∀ c, c ≠ cat →
          ∀ g ∈ filesOf (reanalyzeFile false cat acc f).1.folders c,
            g ∈ filesOf acc.1.folders c ∨ correctlyPlaced c g = true)
      ∧ (∀ g ∈ filesOf (reanalyzeFile false cat acc f).1.folders cat,
          (g ∈ filesOf acc.1.folders cat ∧ g ≠ f)
            ∨ correctlyPlaced cat g = true)
      ∧ (∀ g ∈ filesOf acc.1.folders cat, g.name ≠ f.name →
          g ∈ filesOf (reanalyzeFile false cat acc f).1.folders cat) := by
    intro hst hplf
    rw [hst]
    refine ⟨⟨hndc, hndn⟩, hwf, ?_, ?_, ?_⟩
    · intro c _ g hg
      exact Or.inl hg
    · intro g hg
      by_cases hgf : g = f
      · subst hgf
        exact Or.inr hplf
      · exact Or.inl ⟨hg, hgf⟩
    · intro g hg _
      exact hg
  rcases reFile_cases false cat acc f with h | ⟨h1, h2⟩ | ⟨h1, h2, h3, h4⟩
    | ⟨h1, h2, h5⟩
  · refine hframe ?_ ?_
    · rw [reFile_system false cat acc f h]
    · unfold correctlyPlaced
      rw [h]
      simp
  · refine hframe ?_ ?_
    · rw [reFile_statFail false cat acc f h1 h2]
    · unfold correctlyPlaced
      rw [h1, h2]
      simp
  · refine hframe ?_ ?_
    · rw [reFile_nochange false cat acc f h1 h2 h3 h4]
    · exact correctlyPlaced_of_reCat cat f h3
  · by_cases hself : (reChangeDest cat f == cat
        && reChangeFinal acc.1.folders cat acc.2.2 f == f.name) = true
    · -- resolved destination is the file's own path: nothing changes
      rcases reChange_dest_cases acc.1.folders cat f with ⟨hm, hd, hfs1⟩
        | ⟨hm, hd, hdne, hfs1⟩
      · refine hframe ?_ ?_
        · rw [reFile_change_self cat acc f h1 h2 h5 hself]
          exact hfs1
        · exact correctlyPlaced_of_reCat cat f (bne_eq_false_iff_eq.mp hm)
      · rw [Bool.and_eq_true] at hself
        exact absurd (eq_of_beq hself.1) hdne
    · have hselff : (reChangeDest cat f == cat
          && reChangeFinal acc.1.folders cat acc.2.2 f == f.name) = false := by
        simpa using hself
      have hfresh := reChangeFinal_fresh acc.1.folders cat acc.2.2 f hselff
      have hrecpl : correctlyPlaced (reChangeDest cat f)
          { f with name := reChangeFinal acc.1.folders cat acc.2.2 f }
            = true :=
        correctlyPlaced_of_reCat _ _
          ((reCat_reChangeFinal acc.1.folders cat acc.2.2 f hnef).trans
            (reCat_eq_dest acc.1.folders cat f))
      have hstate : (reanalyzeFile false cat acc f).1.folders
          = addFile (removeFile (reChangeFs1 acc.1.folders cat f) cat f.name)
              (reChangeDest cat f)
              { f with name := reChangeFinal acc.1.folders cat acc.2.2 f } := by
        rw [reFile_change_move cat acc f h1 h2 h5 hselff hmvf]
      have heraseP : (filesOf acc.1.folders cat).eraseP
            (fun g => g.name == f.name)
          = (filesOf acc.1.folders cat).filter
            (fun g => !(g.name == f.name)) :=
        eraseP_name_eq_filter _ _ hsnapnd
      rw [hstate]
      rcases reChange_dest_cases acc.1.folders cat f with ⟨hm, hd, hfs1⟩
        | ⟨hm, hd, hdne, hfs1⟩
      · -- in-folder rename: remove the old path, add the fresh one, same
        -- folder
        rw [hd, hfs1]
        rw [hd, hfs1] at hfresh
        rw [hd] at hrecpl
        have hhf : hasFolder acc.1.folders cat = true :=
          hasFolder_of_filesOf_mem _ _ f hmemf
        have hhfr : hasFolder (removeFile acc.1.folders cat f.name) cat
            = true := by
          rw [hasFolder_congr _ acc.1.folders cat
            (map_category_removeFile _ _ _)]
          exact hhf
        have hfreshr : pathExists (removeFile acc.1.folders cat f.name) cat
            (reChangeFinal acc.1.folders cat acc.2.2 f) = false := by
          cases hex : pathExists (removeFile acc.1.folders cat f.name) cat
              (reChangeFinal acc.1.folders cat acc.2.2 f) with
          | false => rfl
          | true =>
            have hcontra := pathExists_removeFile _ _ _ _ _ hex
            rw [hcontra] at hfresh
            simp at hfresh
        have hndr : ∀ fo ∈ removeFile acc.1.folders cat f.name,
            (fo.files.map FileRec.name).Nodup :=
          folders_prop_removeFile _ _ _ _ hndn (fun fo hfo =>
            List.Nodup.sublist ((List.eraseP_sublist _).map FileRec.name)
              (hndn fo hfo))
        have hwr : ∀ fo ∈ removeFile acc.1.folders cat f.name,
            ∀ g ∈ fo.files, g.moveFails = false ∧ g.name ≠ "" :=
          folders_prop_removeFile _ _ _ _ hwf (fun fo hfo g hg =>
            hwf fo hfo g (List.mem_of_mem_eraseP hg))
        have hfadd : filesOf (addFile (removeFile acc.1.folders cat f.name)
              cat { f with name := (reChangeFinal
                acc.1.folders cat acc.2.2 f) }) cat
            = (filesOf acc.1.folders cat).eraseP (fun g => g.name == f.name)
              ++ [{ f with name := (reChangeFinal
                acc.1.folders cat acc.2.2 f) }] := by
          rw [filesOf_addFile_self _ _ _ hhfr, filesOf_removeFile_self]
        refine ⟨⟨?_, ?_⟩, ?_, ?_, ?_, ?_⟩
        · rw [map_category_addFile, map_category_removeFile]
          exact hndc
        · exact names_nodup_addFile _ _ _ hndr hfreshr
        · refine folders_prop_addFile _ _ _ _ hwr ?_
          intro fo hfo hcat g hg
          rcases List.mem_append.mp hg with hg1 | hg2
          · exact hwr fo hfo g hg1
          · simp only [List.mem_singleton] at hg2
            subst hg2
            exact ⟨hmvf,
              reChangeFinal_ne_empty acc.1.folders cat acc.2.2 f hnef⟩
        · intro c hc g hg
          rw [filesOf_addFile_ne _ _ _ _ hc,
            filesOf_removeFile_ne _ _ _ _ hc] at hg
          exact Or.inl hg
        · intro g hg
          rw [hfadd, heraseP] at hg
          rcases List.mem_append.mp hg with hg1 | hg2
          · rw [List.mem_filter] at hg1
            refine Or.inl ⟨hg1.1, ?_⟩
            intro hgf
            have hP := hg1.2
            rw [hgf] at hP
            simp at hP
          · simp only [List.mem_singleton] at hg2
            subst hg2
            exact Or.inr hrecpl
        · intro g hg hgname
          rw [hfadd, heraseP]
          apply List.mem_append_left
          rw [List.mem_filter]
          refine ⟨hg, ?_⟩
          rw [beq_eq_false_iff_ne.mpr hgname]
          rfl
      · -- cross-category move: ensure the destination folder, remove from
        -- the source, add the fresh name at the destination
        have hdne2 : reCat f ≠ cat := by
          rw [← hd]
          exact hdne
        rw [hd, hfs1]
        rw [hd, hfs1] at hfresh
        rw [hd] at hrecpl
        have hhf1 : hasFolder (mkdirExistOk acc.1.folders (reCat f))
            (reCat f) = true := hasFolder_mkdirExistOk_self _ _
        have hhfr : hasFolder (removeFile (mkdirExistOk acc.1.folders
            (reCat f)) cat f.name) (reCat f) = true := by
          rw [hasFolder_congr _ _ _ (map_category_removeFile _ _ _)]
          exact hhf1
        have hfreshr : pathExists (removeFile (mkdirExistOk acc.1.folders
              (reCat f)) cat f.name) (reCat f)
            (reChangeFinal acc.1.folders cat acc.2.2 f) = false := by
          cases hex : pathExists (removeFile (mkdirExistOk acc.1.folders
              (reCat f)) cat f.name) (reCat f)
              (reChangeFinal acc.1.folders cat acc.2.2 f) with
          | false => rfl
          | true =>
            have hcontra := pathExists_removeFile _ _ _ _ _ hex
            rw [hcontra] at hfresh
            simp at hfresh
        have hnd1 : ∀ fo ∈ mkdirExistOk acc.1.folders (reCat f),
            (fo.files.map FileRec.name).Nodup := by
          intro fo hfo
          rcases mem_mkdirExistOk _ _ _ hfo with hmem | rfl
          · exact hndn fo hmem
          · simp
        have hw1 : ∀ fo ∈ mkdirExistOk acc.1.folders (reCat f),
            ∀ g ∈ fo.files, g.moveFails = false ∧ g.name ≠ "" := by
          intro fo hfo
          rcases mem_mkdirExistOk _ _ _ hfo with hmem | rfl
          · exact hwf fo hmem
          · intro g hg
            simp at hg
        have hndr : ∀ fo ∈ removeFile (mkdirExistOk acc.1.folders (reCat f))
              cat f.name, (fo.files.map FileRec.name).Nodup :=
          folders_prop_removeFile _ _ _ _ hnd1 (fun fo hfo =>
            List.Nodup.sublist ((List.eraseP_sublist _).map FileRec.name)
              (hnd1 fo hfo))
        have hwr : ∀ fo ∈ removeFile (mkdirExistOk acc.1.folders (reCat f))
              cat f.name, ∀ g ∈ fo.files,
            g.moveFails = false ∧ g.name ≠ "" :=
          folders_prop_removeFile _ _ _ _ hw1 (fun fo hfo g hg =>
            hw1 fo hfo g (List.mem_of_mem_eraseP hg))
        refine ⟨⟨?_, ?_⟩, ?_, ?_, ?_, ?_⟩
        · rw [map_category_addFile, map_category_removeFile]
          exact cats_nodup_mkdirExistOk _ _ hndc
        · exact names_nodup_addFile _ _ _ hndr hfreshr
        · refine folders_prop_addFile _ _ _ _ hwr ?_
          intro fo hfo hcat g hg
          rcases List.mem_append.mp hg with hg1 | hg2
          · exact hwr fo hfo g hg1
          · simp only [List.mem_singleton] at hg2
            subst hg2
            exact ⟨hmvf,
              reChangeFinal_ne_empty acc.1.folders cat acc.2.2 f hnef⟩
        · intro c hc g hg
          by_cases hcd : c = reCat f
          · subst hcd
            rw [filesOf_addFile_self _ _ _ hhfr,
              filesOf_removeFile_ne _ _ _ _ hdne2,
              filesOf_mkdirExistOk] at hg
            rcases List.mem_append.mp hg with hg1 | hg2
            · exact Or.inl hg1
            · simp only [List.mem_singleton] at hg2
              subst hg2
              exact Or.inr hrecpl
          · rw [filesOf_addFile_ne _ _ _ _ hcd,
              filesOf_removeFile_ne _ _ _ _ hc,
              filesOf_mkdirExistOk] at hg
            exact Or.inl hg
        · intro g hg
          rw [filesOf_addFile_ne _ _ _ _ (Ne.symm hdne2),
            filesOf_removeFile_self, filesOf_mkdirExistOk, heraseP] at hg
          rw [List.mem_filter] at hg
          refine Or.inl ⟨hg.1, ?_⟩
          intro hgf
          have hP := hg.2
          rw [hgf] at hP
          simp at hP
        · intro g hg hgname
          rw [filesOf_addFile_ne _ _ _ _ (Ne.symm hdne2),
            filesOf_removeFile_self, filesOf_mkdirExistOk, heraseP]
          rw [List.mem_filter]
          refine ⟨hg, ?_⟩
          rw [beq_eq_false_iff_ne.mpr hgname]
          rfl

theorem reFolderFold_establish (cat : String) :
    ∀ (pend : List FileRec) (acc : RootState × Stats × Bool),
    (acc.1.folders.map Folder.category).Nodup →
    (∀ fo ∈ acc.1.folders, (fo.files.map FileRec.name).Nodup) →
    (∀ fo ∈ acc.1.folders, ∀ g ∈ fo.files,
      g.moveFails = false ∧ g.name ≠ "") →
    (∀ g ∈ pend, g ∈ filesOf acc.1.folders cat) →
    ((pend.map FileRec.name).Nodup) →
    (((pend.foldl (reanalyzeFile false cat) acc).1.folders.map
        Folder.category).Nodup
      ∧ ∀ fo ∈ (pend.foldl (reanalyzeFile false cat) acc).1.folders,
          (fo.files.map FileRec.name).Nodup)
    ∧ (∀ fo ∈ (pend.foldl (reanalyzeFile false cat) acc).1.folders,
        ∀ g ∈ fo.files, g.moveFails = false ∧ g.name ≠ "")
    ∧ (∀ c, c ≠ cat →
        ∀ g ∈ filesOf
            (pend.foldl (reanalyzeFile false cat) acc).1.folders c,
          g ∈ filesOf acc.1.folders c ∨ correctlyPlaced c g = true)
    ∧ (∀ g ∈ filesOf
          (pend.foldl (reanalyzeFile false cat) acc).1.folders cat,
        (g ∈ filesOf acc.1.folders cat ∧ g ∉ pend)
          ∨ correctlyPlaced cat g = true) := by
  intro pend
  induction pend with
  | nil =>
    intro acc hndc hndn hwf hmem hpnd
    refine ⟨⟨hndc, hndn⟩, hwf, ?_, ?_⟩
    · intro c _ g hg
      exact Or.inl hg
    · intro g hg
      exact Or.inl ⟨hg, by simp⟩
  | cons f rest ih =>
    intro acc hndc hndn hwf hmem hpnd
    rw [List.map_cons, List.nodup_cons] at hpnd
    have hstep := reFile_establish_step cat acc f hndc hndn hwf
      (hmem f (by simp))
    obtain ⟨⟨hndc1, hndn1⟩, hwf1, hR3, hR4, hR5⟩ := hstep
    have hmem1 : ∀ g ∈ rest, g ∈ filesOf
        (reanalyzeFile false cat acc f).1.folders cat := by
      intro g hg
      apply hR5 g (hmem g (by simp [hg]))
      intro hgn
      apply hpnd.1
      rw [← hgn]
      exact List.mem_map_of_mem FileRec.name hg
    have hrest := ih (reanalyzeFile false cat acc f) hndc1 hndn1 hwf1
      hmem1 hpnd.2
    obtain ⟨hA, hB, hC, hD⟩ := hrest
    rw [List.foldl_cons]
    refine ⟨hA, hB, ?_, ?_⟩
    · intro c hc g hg
      rcases hC c hc g hg with hg1 | hg2
      · exact hR3 c hc g hg1
      · exact Or.inr hg2
    · intro g hg
      rcases hD g hg with ⟨hg1, hg1n⟩ | hg2
      · rcases hR4 g hg1 with ⟨hg3, hg3f⟩ | hg4
        · refine Or.inl ⟨hg3, ?_⟩
          intro hgmem
          rcases List.mem_cons.mp hgmem with rfl | hgr
          · exact hg3f rfl
          · exact hg1n hgr
        · exact Or.inr hg4
      · exact Or.inr hg2

theorem reCatsFold_establish :
    ∀ (cats : List String) (acc : RootState × Stats × Bool),
    cats.Nodup →
    (acc.1.folders.map Folder.category).Nodup →
    (∀ fo ∈ acc.1.folders, (fo.files.map FileRec.name).Nodup) →
    (∀ fo ∈ acc.1.folders, ∀ g ∈ fo.files,
      g.moveFails = false ∧ g.name ≠ "") →
    (∀ fo ∈ acc.1.folders, fo.category ∉ cats →
      ∀ g ∈ fo.files, correctlyPlaced fo.category g = true) →
    (((cats.foldl (reanalyzeFolder false) acc).1.folders.map
        Folder.category).Nodup
      ∧ ∀ fo ∈ (cats.foldl (reanalyzeFolder false) acc).1.folders,
          (fo.files.map FileRec.name).Nodup)
    ∧ (∀ fo ∈ (cats.foldl (reanalyzeFolder false) acc).1.folders,
        ∀ g ∈ fo.files, g.moveFails = false ∧ g.name ≠ "")
    ∧ allPlacedOk (cats.foldl (reanalyzeFolder false) acc).1.folders := by
  intro cats
  induction cats with
  | nil =>
    intro acc _ hndc hndn hwf hplaced
    refine ⟨⟨hndc, hndn⟩, hwf, ?_⟩
    intro fo hfo g hg
    exact hplaced fo hfo (by simp) g hg
  | cons cat rest ih =>
    intro acc hnd hndc hndn hwf hplaced
    rw [List.nodup_cons] at hnd
    have hfold := reFolderFold_establish cat (filesOf acc.1.folders cat) acc
      hndc hndn hwf (fun g hg => hg) (filesOf_names_nodup _ _ hndn)
    obtain ⟨⟨hndc1, hndn1⟩, hwf1, hR3, hR4⟩ := hfold
    have hfolder : reanalyzeFolder false acc cat
        = (filesOf acc.1.folders cat).foldl (reanalyzeFile false cat) acc :=
      rfl
    rw [List.foldl_cons]
    refine ih (reanalyzeFolder false acc cat) hnd.2 ?_ ?_ ?_ ?_
    · rw [hfolder]
      exact hndc1
    · rw [hfolder]
      exact hndn1
    · rw [hfolder]
      exact hwf1
    · intro fo hfo hnotin g hg
      rw [hfolder] at hfo
      have hgfo : g ∈ filesOf ((filesOf acc.1.folders cat).foldl
          (reanalyzeFile false cat) acc).1.folders fo.category := by
        rw [filesOf_eq_of_mem_nodup _ fo hndc1 hfo]
        exact hg
      by_cases hfc : fo.category = cat
      · rw [hfc] at hgfo ⊢
        rcases hR4 g hgfo with ⟨hgm, hnp⟩ | hpl
        · exact absurd hgm hnp
        · exact hpl
      · rcases hR3 fo.category hfc g hgfo with hold | hpl
        · by_cases hmemc : fo.category ∈ acc.1.folders.map Folder.category
          · rcases filesOf_mem acc.1.folders fo.category hmemc with
              ⟨fo2, hfo2, hfo2c, hfof⟩
            rw [hfof] at hold
            have hnotin2 : fo2.category ∉ cat :: rest := by
              rw [hfo2c]
              intro hmem2
              rcases List.mem_cons.mp hmem2 with hx | hx
              · exact hfc hx
              · exact hnotin hx
            have hpl2 := hplaced fo2 hfo2 hnotin2 g hold
            rw [hfo2c] at hpl2
            exact hpl2
          · rw [filesOf_eq_nil_of_not_mem _ _ hmemc] at hold
            simp at hold
        · exact hpl

theorem reconcile_establish (s : RootState) (client : Bool)
    (hndc : (s.folders.map Folder.category).Nodup)
    (hndn : ∀ fo ∈ s.folders, (fo.files.map FileRec.name).Nodup)
    (hwf : ∀ fo ∈ s.folders, ∀ g ∈ fo.files,
      g.moveFails = false ∧ g.name ≠ "") :
    (((reanalyze_organized_files s client false).1.folders.map
        Folder.category).Nodup)
    ∧ allPlacedOk (reanalyze_organized_files s client false).1.folders := by
  unfold reanalyze_organized_files
  by_cases hemp : (s.folders.map Folder.category).isEmpty = true
  · rw [if_pos hemp]
    have hnil : s.folders = [] :=
      List.map_eq_nil_iff.mp (List.isEmpty_iff.mp hemp)
    constructor
    · exact hndc
    · show allPlacedOk s.folders
      rw [hnil]
      intro fo hfo
      simp at hfo
  · rw [if_neg hemp]
    have hmain := reCatsFold_establish (s.folders.map Folder.category)
      (s, Stats.zero, client) hndc hndc hndn hwf
      (fun fo hfo hnot => absurd (List.mem_map_of_mem Folder.category hfo)
        hnot)
    obtain ⟨⟨hndc1, _⟩, _, hplaced⟩ := hmain
    exact ⟨hndc1, hplaced⟩

/-! ### A correctly-placed file never bumps the move counter -/

theorem reFile_placed_moved (d : Bool) (cat : String)
    (acc : RootState × Stats × Bool) (f : FileRec)
    (hpl : correctlyPlaced cat f = true) :
    (reanalyzeFile d cat acc f).2.1.files_moved
      = acc.2.1.files_moved := by
  rcases reFile_cases d cat acc f with h | ⟨h1, h2⟩ | ⟨h1, h2, h3, h4⟩
    | ⟨h1, h2, h5⟩
  · rw [reFile_system d cat acc f h]
  · rw [reFile_statFail d cat acc f h1 h2]
  · rw [reFile_nochange d cat acc f h1 h2 h3 h4]
  · have hcm := placed_no_catmove cat f h1 h2 hpl
    have hmoved : ∀ st : Stats,
        (reStats1 cat acc.2.2 f st).files_moved = st.files_moved := by
      intro st
      show (if (reCat f != cat) = true then st.files_moved + 1
        else st.files_moved) = st.files_moved
      rw [hcm]
      simp
    cases d with
    | true =>
      rw [reFile_change_dry cat acc f h1 h2 h5]
      rw [aiBump_files_moved, hmoved]
    | false =>
      by_cases hself : (reChangeDest cat f == cat
          && reChangeFinal acc.1.folders cat acc.2.2 f == f.name) = true
      · rw [reFile_change_self cat acc f h1 h2 h5 hself]
        rw [aiBump_files_moved, hmoved]
      · have hselff : (reChangeDest cat f == cat
            && reChangeFinal acc.1.folders cat acc.2.2 f == f.name)
              = false := by
          simpa using hself
        by_cases hmv : f.moveFails = true
        · rw [reFile_change_movefail cat acc f h1 h2 h5 hselff hmv]
          rw [hmoved]
        · have hmvf : f.moveFails = false := by
            simpa using hmv
          rw [reFile_change_move cat acc f h1 h2 h5 hselff hmvf]
          rw [aiBump_files_moved, hmoved]

theorem reFolderFold_placed_moved (d : Bool) (cat : String)
    (files : List FileRec)
    (hall : ∀ f ∈ files, correctlyPlaced cat f = true) :
    ∀ (acc : RootState × Stats × Bool),
      (files.foldl (reanalyzeFile d cat) acc).2.1.files_moved
        = acc.2.1.files_moved := by
  induction files with
  | nil => intro acc; rfl
  | cons f rest ih =>
    intro acc
    rw [List.foldl_cons]
    rw [ih (fun g hg => hall g (by simp [hg])) (reanalyzeFile d cat acc f)]
    exact reFile_placed_moved d cat acc f (hall f (by simp))

theorem reCatsFold_placed_moved (cats : List String) (d : Bool)
    (s0 : List Folder) (hplaced : allPlacedOk s0) :
    ∀ (acc : RootState × Stats × Bool),
    cats.Nodup →
    (∀ c ∈ cats, c ∈ s0.map Folder.category) →
    (acc.1.folders.map Folder.category = s0.map Folder.category) →
    (∀ c ∈ cats, filesOf acc.1.folders c = filesOf s0 c) →
    (cats.foldl (reanalyzeFolder d) acc).2.1.files_moved
      = acc.2.1.files_moved := by
  induction cats with
  | nil => intro acc _ _ _ _; rfl
  | cons cat rest ih =>
    intro acc hnd hmem hmap hfiles
    rw [List.nodup_cons] at hnd
    have hsnap : filesOf acc.1.folders cat = filesOf s0 cat :=
      hfiles cat (by simp)
    have hall : ∀ f ∈ filesOf acc.1.folders cat,
        correctlyPlaced cat f = true := by
      rw [hsnap]
      rcases filesOf_mem s0 cat (hmem cat (by simp)) with
        ⟨fo, hfo, hcat, hfof⟩
      rw [hfof]
      intro f hf
      have hp := hplaced fo hfo f hf
      rw [hcat] at hp
      exact hp
    have hfold := reFolderFold_placed d cat (filesOf acc.1.folders cat)
      hall acc
    have hfoldmv := reFolderFold_placed_moved d cat
      (filesOf acc.1.folders cat) hall acc
    have hfolder : reanalyzeFolder d acc cat
        = (filesOf acc.1.folders cat).foldl (reanalyzeFile d cat) acc := rfl
    have hmap2 : (reanalyzeFolder d acc cat).1.folders.map Folder.category
        = s0.map Folder.category := by
      rw [hfolder, hfold.1, hmap]
    have hfiles2 : ∀ c ∈ rest,
        filesOf (reanalyzeFolder d acc cat).1.folders c = filesOf s0 c := by
      intro c hc
      have hne : c ≠ cat := fun hcc => hnd.1 (hcc ▸ hc)
      rw [hfolder, hfold.2 c hne]
      exact hfiles c (by simp [hc])
    rw [List.foldl_cons, ih (reanalyzeFolder d acc cat) hnd.2
      (fun c hc => hmem c (by simp [hc])) hmap2 hfiles2]
    rw [hfolder]
    exact hfoldmv

theorem reconcile_placed_moved (s : RootState) (client : Bool) (d : Bool)
    (hndc : (s.folders.map Folder.category).Nodup)
    (hplaced : allPlacedOk s.folders) (st : Stats)
    (h : (reanalyze_organized_files s client d).2.1 = some st) :
    st.files_moved = 0 := by
  unfold reanalyze_organized_files at h
  by_cases hemp : (s.folders.map Folder.category).isEmpty = true
  · rw [if_pos hemp] at h
    have h2 : (none : Option Stats) = some st := h
    simp at h2
  · rw [if_neg hemp] at h
    have h2 : some (((s.folders.map Folder.category).foldl
        (reanalyzeFolder d) (s, Stats.zero, client)).2.1) = some st := h
    have hst : st = ((s.folders.map Folder.category).foldl
        (reanalyzeFolder d) (s, Stats.zero, client)).2.1 :=
      (Option.some.inj h2).symm
    rw [hst]
    rw [reCatsFold_placed_moved (s.folders.map Folder.category) d s.folders
      hplaced (s, Stats.zero, client) hndc (fun c hc => hc) rfl
      (fun c _ => rfl)]
    simp [Stats.zero]

/-! ### Claim C2 -/

/-- C2 counterexample: with the AI collaborator disabled and no external
change, a second live reconcile run over `exTwinState` (two same-content
documents) still reports `files_renamed = 1`, not 0: the first run gave the
second twin the conflict-suffixed name `machine_learning_algorithms_1.txt`,
and every later run recomputes the unsuffixed name, counts a rename, and
then drops it when the conflict loop resolves back to the file's own path.
The claimed `filesRenamed = 0 ∧ filesMoved = 0` is therefore false. -/
theorem c2_counterexample :
    (reanalyze_organized_files
        (reanalyze_organized_files exTwinState false false).1
        false false).2.1
      = some ⟨2, 1, 0, 0⟩
    ∧ (⟨2, 1, 0, 0⟩ : Stats).files_renamed ≠ 0 := by
  constructor
  · decide
  · decide

/-- C2 (amended): running ReconcilePass twice in a row on the same root
with the AI collaborator disabled and no external filesystem change yields
a stats object with `filesMoved = 0` on the second run, provided the root
is well-formed (distinct folder categories, distinct names inside each
folder, no failing moves, no empty names).  The `filesRenamed` component
can stay positive forever (see the counterexample), because a
conflict-suffixed file is re-counted as a rename on every run before the
resolver settles on its own path again. -/
theorem c2_amended (s : RootState)
    (hnd : stateNodup s.folders) (hwf : filesWellFormed s.folders)
    (st : Stats)
    (h : (reanalyze_organized_files
        (reanalyze_organized_files s false false).1 false false).2.1
      = some st) :
    st.files_moved = 0 := by
  obtain ⟨hndc, hndn⟩ := hnd
  have hest := reconcile_establish s false hndc hndn hwf
  exact reconcile_placed_moved (reanalyze_organized_files s false false).1
    false false hest.1 hest.2 st h

/-- C2 witness: the twin-document root satisfies the hypotheses, its second
run returns stats, and the amended theorem applies. -/
theorem c2_amended_witness :
    stateNodup exTwinState.folders
    ∧ filesWellFormed exTwinState.folders
    ∧ (reanalyze_organized_files
        (reanalyze_organized_files exTwinState false false).1 false
          false).2.1 = some ⟨2, 1, 0, 0⟩
    ∧ (⟨2, 1, 0, 0⟩ : Stats).files_moved = 0 := by
  have hres : (reanalyze_organized_files
      (reanalyze_organized_files exTwinState false false).1 false
        false).2.1 = some ⟨2, 1, 0, 0⟩ := by decide
  refine ⟨?_, ?_, hres, ?_⟩
  · unfold stateNodup
    decide
  · unfold filesWellFormed
    decide
  · exact c2_amended exTwinState
      (by unfold stateNodup; decide)
      (by unfold filesWellFormed; decide)
      ⟨2, 1, 0, 0⟩ hres

end FileReorg
